import Mathlib

/-
Verification of the workflow-engine core (src/app/engine.py) against its
natural-language specification.

The pure embedding below mirrors engine.py line by line:
  * `Val` is the universe of state values used by condition comparisons
    (Python None / int / str / list; richer nested, mutable values are
    handled by the heap refinement further down, which models object
    identity, in-place dict update and copy.deepcopy).
  * Python dicts used as maps (graphs, runs, tools, the shared state) are
    embedded as functions into Option; dict assignment is functional update.
  * Raising an exception is embedded as returning Except.error; the
    distinct Python exceptions (KeyError on a missing graph / run / tool,
    ValueError on an unsupported operator, TypeError on an incomparable
    comparison, arbitrary exceptions raised by a tool) are the constructors
    of `Err`.
  * `uuid4()` is modelled by a fresh counter carried in the engine record;
    the claims only use that the allocated run id is the key under which
    the run is stored.
-/

namespace WFE

/-- Errors of the engine core.  Each constructor stands for one of the
exceptions the Python code can raise, carrying the identifying payload of
its message. -/
inductive Err where
  | graphNotFound (graph_id : String)
  | runNotFound (run_id : String)
  | toolNotFound (name : String)
  | unsupportedOp (op : String)
  | typeErr
  | toolErr (msg : String)
  deriving Repr, DecidableEq

/-- State values: Python None, int, str and list, the value shapes the
engine's condition comparison can meet in this embedding. -/
inductive Val where
  | none
  | int (n : Int)
  | str (s : String)
  | list (xs : List Val)
  deriving Repr

mutual
/-- Python equality (==) on `Val`: None equals None, numbers and strings
compare by value, lists compare elementwise, values of different shapes are
unequal. -/
def pyEq : Val → Val → Bool
  | Val.none, Val.none => true
  | Val.int a, Val.int b => a == b
  | Val.str a, Val.str b => a == b
  | Val.list xs, Val.list ys => pyEqList xs ys
  | _, _ => false

/-- Python elementwise equality of lists. -/
def pyEqList : List Val → List Val → Bool
  | [], [] => true
  | x :: xs, y :: ys => pyEq x y && pyEqList xs ys
  | _, _ => false
end

mutual
/-- Python strict order (<) on `Val`: defined within ints and within
strings, lexicographic on lists, and a TypeError on any other pair
(in particular on None and on mixed shapes). -/
def pyLt : Val → Val → Except Err Bool
  | Val.int a, Val.int b => Except.ok (decide (a < b))
  | Val.str a, Val.str b => Except.ok (decide (a < b))
  | Val.list xs, Val.list ys => pyLtList xs ys
  | _, _ => Except.error Err.typeErr

/-- Python lexicographic (<) on lists: the first non-equal pair decides,
otherwise the shorter list is smaller. -/
def pyLtList : List Val → List Val → Except Err Bool
  | [], [] => Except.ok false
  | [], _ :: _ => Except.ok true
  | _ :: _, [] => Except.ok false
  | x :: xs, y :: ys => if pyEq x y then pyLtList xs ys else pyLt x y
end

mutual
/-- Python non-strict order (<=) on `Val`. -/
def pyLe : Val → Val → Except Err Bool
  | Val.int a, Val.int b => Except.ok (decide (a ≤ b))
  | Val.str a, Val.str b => Except.ok (decide (a ≤ b))
  | Val.list xs, Val.list ys => pyLeList xs ys
  | _, _ => Except.error Err.typeErr

/-- Python lexicographic (<=) on lists: the first non-equal pair decides
by (<), otherwise the shorter-or-equal list is smaller-or-equal. -/
def pyLeList : List Val → List Val → Except Err Bool
  | [], _ => Except.ok true
  | _ :: _, [] => Except.ok false
  | x :: xs, y :: ys => if pyEq x y then pyLeList xs ys else pyLt x y
end

/-- Python (>): for the built-in types involved this is the reflected
strict order. -/
def pyGt (lhs rhs : Val) : Except Err Bool := pyLt rhs lhs

/-- Python (>=): the reflected non-strict order. -/
def pyGe (lhs rhs : Val) : Except Err Bool := pyLe rhs lhs

/-- Shared run state: a Python dict from string keys to values, embedded
as a partial map. -/
def StateMap : Type := String → Option Val

/-- Tool operations take the state and the node's config and either raise
or return an optional dict of updates (engine.py line 54: a tool returns a
dict; `run_graph` treats a falsy result as "no updates"). -/
def Tool : Type := StateMap → List (String × Val) → Except Err (Option (List (String × Val)))

/-- Node dataclass (engine.py lines 11-15). -/
structure Node where
  id : String
  tool : String
  config : List (String × Val)

/-- Edge dataclass (engine.py lines 18-27). -/
structure Edge where
  from_node : String
  to_node : Option String
  condition_key : Option String
  condition_op : Option String
  condition_value : Val
  true_target : Option String
  false_target : Option String

/-- Graph dataclass (engine.py lines 30-36); the node and edge dicts are
embedded as partial maps keyed by node id / source node id. -/
structure Graph where
  id : String
  name : String
  start_node : String
  nodes : String → Option Node
  edges : String → Option Edge

/-- StepLog record (models.py lines 48-52).  In this immutable embedding
the deep copy taken by the executor is the identity, so the snapshot field
simply holds the state; the heap refinement below accounts for aliasing. -/
structure StepLog where
  step_index : Nat
  node_id : String
  tool : String
  state_snapshot : StateMap

/-- Run dataclass (engine.py lines 39-46). -/
structure Run where
  id : String
  graph_id : String
  status : String
  current_node : Option String
  state : StateMap
  log : List StepLog

/-- ToolRegistry (engine.py lines 49-70): a dict from names to callables. -/
structure ToolRegistry where
  _tools : String → Option Tool

/-- ToolRegistry.register (engine.py lines 61-62): dict assignment,
overwriting any previous binding of the name. -/
def ToolRegistry.register (r : ToolRegistry) (name : String) (func : Tool) : ToolRegistry :=
  { _tools := fun n => if n = name then some func else r._tools n }

/-- ToolRegistry.get (engine.py lines 64-67): raise KeyError naming the
missing tool, else return the callable. -/
def ToolRegistry.get (r : ToolRegistry) (name : String) : Except Err Tool :=
  match r._tools name with
  | Option.none => Except.error (Err.toolNotFound name)
  | some f => Except.ok f

/-- GraphEngine (engine.py lines 73-87): the tool registry plus the graph
and run stores.  `counter` models uuid4's supply of fresh run ids. -/
structure GraphEngine where
  tool_registry : ToolRegistry
  graphs : String → Option Graph
  runs : String → Option Run
  counter : Nat

/-- GraphEngine.get_graph (engine.py lines 122-125). -/
def GraphEngine.get_graph (e : GraphEngine) (graph_id : String) : Except Err Graph :=
  match e.graphs graph_id with
  | Option.none => Except.error (Err.graphNotFound graph_id)
  | some g => Except.ok g

/-- GraphEngine._compare (engine.py lines 129-143): the six-operator
dispatch table, raising ValueError on any other operator string. -/
def _compare (lhs : Val) (op : String) (rhs : Val) : Except Err Bool :=
  if op = "gt" then pyGt lhs rhs
  else if op = "ge" then pyGe lhs rhs
  else if op = "lt" then pyLt lhs rhs
  else if op = "le" then pyLe lhs rhs
  else if op = "eq" then Except.ok (pyEq lhs rhs)
  else if op = "ne" then Except.ok (!pyEq lhs rhs)
  else Except.error (Err.unsupportedOp op)

/-- Python dict.get with no default: a missing key yields None. -/
def stateGet (state : StateMap) (key : String) : Val :=
  match state key with
  | Option.none => Val.none
  | some v => v

/-- Python dict.update: assign each update pair in order into the map. -/
def dictUpdate (state : StateMap) (updates : List (String × Val)) : StateMap :=
  List.foldl (fun acc kv => fun k => if k = kv.1 then some kv.2 else acc k) state updates

/-- GraphEngine._next_node_id (engine.py lines 145-158): no edge means
terminal; an edge lacking condition_key or condition_op is linear; a
conditional edge compares state.get(condition_key) against
condition_value and picks true_target or false_target. -/
def _next_node_id (g : Graph) (current_node_id : String) (state : StateMap) :
    Except Err (Option String) :=
  match g.edges current_node_id with
  | Option.none => Except.ok Option.none
  | some edge =>
    match edge.condition_key, edge.condition_op with
    | some ck, some cop =>
      match _compare (stateGet state ck) cop edge.condition_value with
      | Except.error e => Except.error e
      | Except.ok r => Except.ok (if r then edge.true_target else edge.false_target)
    | _, _ => Except.ok edge.to_node

/-- Python `tool(state, node.config) or {}`: a None (or empty) result is
treated as an empty update dict. -/
def orEmpty : Option (List (String × Val)) → List (String × Val)
  | Option.none => []
  | some u => u

/-- The `for step_index in range(max_steps)` loop of run_graph
(engine.py lines 171-200), written as recursion on the remaining
iterations.  Results mirror the loop's exits: the for-else branch when the
budget is exhausted ("failed"), the break on a terminal node
("completed"), the break on an unknown node id ("failed"), and any raised
exception as Except.error. -/
def runLoop (reg : ToolRegistry) (g : Graph) (step_index : Nat) (fuel : Nat)
    (current : Option String) (state : StateMap) (logs : List StepLog) :
    Except Err (String × Option String × StateMap × List StepLog) :=
  match fuel with
  | 0 => Except.ok ("failed", current, state, logs)
  | fuel' + 1 =>
    match current with
    | Option.none => Except.ok ("completed", Option.none, state, logs)
    | some cur =>
      match g.nodes cur with
      | Option.none => Except.ok ("failed", some cur, state, logs)
      | some node =>
        match reg.get node.tool with
        | Except.error e => Except.error e
        | Except.ok tool =>
          match tool state node.config with
          | Except.error e => Except.error e
          | Except.ok res =>
            let state1 := dictUpdate state (orEmpty res)
            let logs1 := logs ++ [{ step_index := step_index, node_id := node.id,
                                    tool := node.tool, state_snapshot := state1 }]
            match _next_node_id g cur state1 with
            | Except.error e => Except.error e
            | Except.ok next => runLoop reg g (step_index + 1) fuel' next state1 logs1

/-- GraphEngine.run_graph (engine.py lines 160-211).  The first component
is the returned Run or the raised exception; the second component is the
engine afterwards (the run store is written only on the non-raising
paths, exactly as in the source, where the single write `self.runs[run_id]
= run` sits after the loop). -/
def GraphEngine.run_graph (e : GraphEngine) (graph_id : String) (initial_state : StateMap)
    (max_steps : Nat) : Except Err Run × GraphEngine :=
  match e.get_graph graph_id with
  | Except.error err => (Except.error err, e)
  | Except.ok graph =>
    let run_id := toString e.counter
    let e1 : GraphEngine := { e with counter := e.counter + 1 }
    match runLoop e.tool_registry graph 0 max_steps (some graph.start_node) initial_state [] with
    | Except.error err => (Except.error err, e1)
    | Except.ok (status, current, finalState, logs) =>
      let run : Run := { id := run_id, graph_id := graph_id, status := status,
                         current_node := current, state := finalState, log := logs }
      (Except.ok run, { e1 with runs := fun k => if k = run_id then some run else e1.runs k })

/-- GraphEngine.get_run (engine.py lines 213-216). -/
def GraphEngine.get_run (e : GraphEngine) (run_id : String) : Except Err Run :=
  match e.runs run_id with
  | Option.none => Except.error (Err.runNotFound run_id)
  | some r => Except.ok r

/-! ### Concrete fixtures used by witnesses and counterexamples -/

/-- Tool that always returns no updates. -/
def noopTool : Tool := fun _ _ => Except.ok Option.none

/-- Tool that always returns the single update k ↦ Val.int 1. -/
def oneTool (k : String) : Tool := fun _ _ => Except.ok (some [(k, Val.int 1)])

/-- Empty state fixture. -/
def emptyState : StateMap := fun _ => Option.none

/-- Empty tool registry fixture. -/
def emptyRegistry : ToolRegistry := { _tools := fun _ => Option.none }

/-- Unconditional edge fixture from "a" to "t". -/
def wEdgeAT : Edge :=
  { from_node := "a", to_node := some "t", condition_key := Option.none,
    condition_op := Option.none, condition_value := Val.none,
    true_target := Option.none, false_target := Option.none }

/-- Graph fixture with a single node "a" bound to tool "t1" and a single
unconditional edge "a" → "t". -/
def wGraphA : Graph :=
  { id := "g", name := "wg", start_node := "a",
    nodes := fun k => if k = "a" then
        some { id := "a", tool := "t1", config := [] } else Option.none,
    edges := fun k => if k = "a" then some wEdgeAT else Option.none }

/-- Engine fixture whose store holds wGraphA but whose registry is empty,
so the node's tool name "t1" does not resolve mid-run. -/
def cexEngine : GraphEngine :=
  { tool_registry := emptyRegistry,
    graphs := fun k => if k = "g" then some wGraphA else Option.none,
    runs := fun _ => Option.none,
    counter := 0 }

/-- Engine fixture where wGraphA's tool "t1" resolves to the no-op tool. -/
def okEngine : GraphEngine :=
  { tool_registry := { _tools := fun k => if k = "t1" then some noopTool else Option.none },
    graphs := fun k => if k = "g" then some wGraphA else Option.none,
    runs := fun _ => Option.none,
    counter := 0 }

/-- Unconditional edge fixture from "a" to "b". -/
def wEdgeAB : Edge :=
  { from_node := "a", to_node := some "b", condition_key := Option.none,
    condition_op := Option.none, condition_value := Val.none,
    true_target := Option.none, false_target := Option.none }

/-- Self-loop edge fixture from "a" back to "a". -/
def wEdgeLoop : Edge :=
  { from_node := "a", to_node := some "a", condition_key := Option.none,
    condition_op := Option.none, condition_value := Val.none,
    true_target := Option.none, false_target := Option.none }

/-- Two-node linear chain fixture "a" → "b", with "b" terminal. -/
def wGraphChain : Graph :=
  { id := "gc", name := "chain", start_node := "a",
    nodes := fun n => if n = "a" then some { id := "a", tool := "t1", config := [] }
      else if n = "b" then some { id := "b", tool := "t1", config := [] }
      else Option.none,
    edges := fun n => if n = "a" then some wEdgeAB else Option.none }

/-- Engine fixture holding the chain graph under id "gc". -/
def chainEngine : GraphEngine :=
  { tool_registry := { _tools := fun k => if k = "t1" then some noopTool else Option.none },
    graphs := fun k => if k = "gc" then some wGraphChain else Option.none,
    runs := fun _ => Option.none,
    counter := 0 }

/-- Path function enumerating the chain fixture's nodes. -/
def wPath : Nat → String := fun j => if j = 0 then "a" else "b"

/-- Self-loop graph fixture: single node "a" with edge "a" → "a". -/
def wGraphLoop : Graph :=
  { id := "gl", name := "loop", start_node := "a",
    nodes := fun k => if k = "a" then some { id := "a", tool := "t1", config := [] }
      else Option.none,
    edges := fun k => if k = "a" then some wEdgeLoop else Option.none }

/-- Engine fixture holding the self-loop graph under id "gl". -/
def loopEngine : GraphEngine :=
  { tool_registry := { _tools := fun k => if k = "t1" then some noopTool else Option.none },
    graphs := fun k => if k = "gl" then some wGraphLoop else Option.none,
    runs := fun _ => Option.none,
    counter := 0 }

/-- Position i on a chain of k nodes: the i-th node id while i < k,
terminal (no node) from k on. -/
def curAt (path : Nat → String) (k i : Nat) : Option String :=
  if i < k then some (path i) else Option.none

/-- Hypotheses describing a pure linear chain of k nodes path 0 … path
(k-1): every chain node exists in the graph, its tool resolves and returns
successfully, and the transition out of node j always leads to node j+1
(terminal after the last node). -/
def ChainHyp (reg : ToolRegistry) (g : Graph) (path : Nat → String) (k : Nat) : Prop :=
  ∀ j, j < k → ∃ node tool,
    g.nodes (path j) = some node
    ∧ reg.get node.tool = Except.ok tool
    ∧ (∀ s, ∃ u, tool s node.config = Except.ok u)
    ∧ (∀ s, _next_node_id g (path j) s = Except.ok (curAt path k (j + 1)))

/-- Tool that always raises. -/
def raiseTool : Tool := fun _ _ => Except.error (Err.toolErr "boom")

/-- Engine fixture whose graph "g" is wGraphA and whose tool "t1" raises
when invoked. -/
def raiseEngine : GraphEngine :=
  { tool_registry := { _tools := fun k => if k = "t1" then some raiseTool else Option.none },
    graphs := fun k => if k = "g" then some wGraphA else Option.none,
    runs := fun _ => Option.none,
    counter := 0 }

/-- Conditional edge fixture comparing state["k"] > 80 out of node "a". -/
def wEdgeCond : Edge :=
  { from_node := "a", to_node := Option.none, condition_key := some "k",
    condition_op := some "gt", condition_value := Val.int 80,
    true_target := Option.none, false_target := Option.none }

/-- Graph fixture whose single node "a" carries the conditional edge
wEdgeCond, so that a run on a state lacking "k" compares None > 80. -/
def wGraphCond : Graph :=
  { id := "gx", name := "cond", start_node := "a",
    nodes := fun k => if k = "a" then
        some { id := "a", tool := "t1", config := [] } else Option.none,
    edges := fun k => if k = "a" then some wEdgeCond else Option.none }

/-- Engine fixture holding wGraphCond under id "gx" with "t1" resolving to
the no-op tool. -/
def condEngine : GraphEngine :=
  { tool_registry := { _tools := fun k => if k = "t1" then some noopTool else Option.none },
    graphs := fun k => if k = "gx" then some wGraphCond else Option.none,
    runs := fun _ => Option.none,
    counter := 0 }

/-- Run record produced by okEngine.run_graph "g" emptyState 2: one step
executed, then the dangling target "t" is found missing from the node
map. -/
def wRunD : Run :=
  { id := "0", graph_id := "g", status := "failed", current_node := some "t",
    state := emptyState,
    log := [{ step_index := 0, node_id := "a", tool := "t1", state_snapshot := emptyState }] }

/-- Run record produced by okEngine.run_graph "g" emptyState 1: one step
executed, then the budget is exhausted with the dangling target "t". -/
def wRun8 : Run :=
  { id := "0", graph_id := "g", status := "failed", current_node := some "t",
    state := emptyState,
    log := [{ step_index := 0, node_id := "a", tool := "t1", state_snapshot := emptyState }] }

/-!
### Heap refinement

The pure embedding above treats all values as immutable, so it cannot
express the aliasing content of the spec's shallow-copy and deep-snapshot
contracts.  The refinement below re-embeds run_graph (engine.py lines
160-211) over an explicit object heap: every Python dict object is a heap
cell addressed by a natural number, nested dicts are `HVal.ref` values,
`dict(initial_state)` reads the caller's cell into a fresh working dict,
`state.update(...)` mutates the working dict in place, and
`copy.deepcopy(state)` recursively copies every referenced cell into fresh
addresses.  Tools follow the §4.1 contract: they are functions of the
state's value returning fresh update values, which the executor allocates
into the heap and merges.  Nested mappings stand in for all nested mutable
containers.
-/

namespace HeapM

/-- Heap values: Python atoms, or a reference (a heap address — plain
naturals, one per dict object) to a dict object. -/
inductive HVal where
  | none
  | int (n : Int)
  | str (s : String)
  | ref (a : Nat)
  deriving Repr, DecidableEq

/-- Contents of one dict object: insertion-ordered key/value pairs. -/
abbrev Cell := List (String × HVal)

/-- The heap: one dict object per address; allocation appends, nothing is
ever written in place during a run (the one mutable dict, the working
state, is threaded as a value because the executor owns it exclusively,
spec §3 Ownership). -/
abbrev Heap := List Cell

/-- Contents of the object at address a (empty for a dangling address). -/
def cellAt (h : Heap) (a : Nat) : Cell := (h[a]?).getD []

/-- Allocate a new dict object, returning its address. -/
def alloc (h : Heap) (c : Cell) : Heap × Nat := (h ++ [c], h.length)

/-- Python dict assignment d[k] = v: overwrite in place preserving the
key's position, else append the new pair. -/
def setKey : Cell → String → HVal → Cell
  | [], k, v => [(k, v)]
  | (k0, v0) :: rest, k, v =>
    if k0 = k then (k0, v) :: rest else (k0, v0) :: setKey rest k v

/-- Python dict.update: assign every pair of u into d, in order. -/
def dictUpdate (d u : Cell) : Cell := u.foldl (fun acc kv => setKey acc kv.1 kv.2) d

/-- Python dict lookup returning None-as-absence. -/
def dictGet : Cell → String → Option HVal
  | [], _ => Option.none
  | (k0, v) :: rest, k => if k0 = k then some v else dictGet rest k

/-- Pure (heap-free) value trees: what a tool's returned update values and
a materialised dict denote. -/
inductive PVal where
  | none
  | int (n : Int)
  | str (s : String)
  | dict (entries : List (String × PVal))
  deriving Repr

mutual
/-- Materialise the dict object at address a as a pure value.  The guard
b < a matches the downward-closed heaps this development runs on (every
reference inside a cell points to an older cell); on other heaps the
branch is never exercised by the theorems below. -/
def matCell (h : Heap) (a : Nat) : PVal := PVal.dict (matEntries h a (cellAt h a))
  termination_by (a, (cellAt h a).length + 1)

/-- Materialise the entries of a cell at address a. -/
def matEntries (h : Heap) (a : Nat) : Cell → List (String × PVal)
  | [] => []
  | (k, v) :: rest =>
    match v with
    | HVal.none => (k, PVal.none) :: matEntries h a rest
    | HVal.int n => (k, PVal.int n) :: matEntries h a rest
    | HVal.str s => (k, PVal.str s) :: matEntries h a rest
    | HVal.ref b =>
      if _hb : b < a then (k, matCell h b) :: matEntries h a rest
      else (k, PVal.none) :: matEntries h a rest
  termination_by c => (a, c.length)
end

/-- Materialise a single heap value. -/
def matHV (h : Heap) : HVal → PVal
  | HVal.none => PVal.none
  | HVal.int n => PVal.int n
  | HVal.str s => PVal.str s
  | HVal.ref b => matCell h b

/-- Materialise a dict value (such as the working state). -/
def matDict (h : Heap) (c : Cell) : List (String × PVal) :=
  c.map (fun kv => (kv.1, matHV h kv.2))

mutual
/-- Allocate a pure value into the heap (how the executor stores a tool's
returned update values): atoms stay inline, dicts become fresh cells whose
children are allocated first. -/
def allocVal (h : Heap) : PVal → Heap × HVal
  | PVal.none => (h, HVal.none)
  | PVal.int n => (h, HVal.int n)
  | PVal.str s => (h, HVal.str s)
  | PVal.dict entries =>
    let (h1, c) := allocEntries h entries
    (h1 ++ [c], HVal.ref h1.length)

/-- Allocate a list of pure key/value pairs into the heap. -/
def allocEntries (h : Heap) : List (String × PVal) → Heap × Cell
  | [] => (h, [])
  | (k, v) :: rest =>
    let (h1, hv) := allocVal h v
    let (h2, c) := allocEntries h1 rest
    (h2, (k, hv) :: c)
end

mutual
/-- copy.deepcopy of the dict object at address a: recursively copy every
referenced cell into fresh cells (children first, so every copy's
references point to older addresses).  The guard matches downward-closed
heaps exactly as in matCell. -/
def deepcopyCell (h : Heap) (a : Nat) : Heap × Nat :=
  let (h1, c) := deepcopyEntries h a (cellAt h a)
  (h1 ++ [c], h1.length)
  termination_by (a, (cellAt h a).length + 1)

/-- Deep-copy the entries of the cell at address a. -/
def deepcopyEntries (h : Heap) (a : Nat) : Cell → Heap × Cell
  | [] => (h, [])
  | (k, v) :: rest =>
    match v with
    | HVal.ref b =>
      if _hb : b < a then
        let (h1, b1) := deepcopyCell h b
        let (h2, c) := deepcopyEntries h1 a rest
        (h2, (k, HVal.ref b1) :: c)
      else
        let (h1, c) := deepcopyEntries h a rest
        (h1, (k, v) :: c)
    | w =>
      let (h1, c) := deepcopyEntries h a rest
      (h1, (k, w) :: c)
  termination_by c => (a, c.length)
end

/-- copy.deepcopy of the working dict value: copy every referenced cell. -/
def deepcopyDict (h : Heap) : Cell → Heap × Cell
  | [] => (h, [])
  | (k, v) :: rest =>
    match v with
    | HVal.ref b =>
      let (h1, b1) := deepcopyCell h b
      let (h2, c) := deepcopyDict h1 rest
      (h2, (k, HVal.ref b1) :: c)
    | w =>
      let (h1, c) := deepcopyDict h rest
      (h1, (k, w) :: c)

mutual
/-- Python equality (==) on materialised values; dicts compare as
unordered key→value mappings. -/
def pyEqP : PVal → PVal → Bool
  | PVal.none, PVal.none => true
  | PVal.int a, PVal.int b => a == b
  | PVal.str a, PVal.str b => a == b
  | PVal.dict xs, PVal.dict ys => xs.length == ys.length && pyEqEntriesP xs ys
  | _, _ => false
  termination_by a _ => (sizeOf a, 0)

/-- Every key of xs is bound in ys to an equal value. -/
def pyEqEntriesP : List (String × PVal) → List (String × PVal) → Bool
  | [], _ => true
  | (k, v) :: rest, ys => findEqP v k ys && pyEqEntriesP rest ys
  termination_by xs _ => (sizeOf xs, 0)

/-- Look k up in ys and compare its value with v. -/
def findEqP (v : PVal) (k : String) : List (String × PVal) → Bool
  | [] => false
  | (k0, w) :: rest => if k0 = k then pyEqP v w else findEqP v k rest
  termination_by ys => (sizeOf v + 1, sizeOf ys)
end

/-- Python strict order on materialised values: ints and strings compare,
anything else (None, dicts, mixed shapes) raises TypeError. -/
def pyLtP : PVal → PVal → Except Err Bool
  | PVal.int a, PVal.int b => Except.ok (decide (a < b))
  | PVal.str a, PVal.str b => Except.ok (decide (a < b))
  | _, _ => Except.error Err.typeErr

/-- Python non-strict order on materialised values. -/
def pyLeP : PVal → PVal → Except Err Bool
  | PVal.int a, PVal.int b => Except.ok (decide (a ≤ b))
  | PVal.str a, PVal.str b => Except.ok (decide (a ≤ b))
  | _, _ => Except.error Err.typeErr

/-- GraphEngine._compare over materialised values: the same six-operator
dispatch as in the pure embedding. -/
def _compareH (lhs : PVal) (op : String) (rhs : PVal) : Except Err Bool :=
  if op = "gt" then pyLtP rhs lhs
  else if op = "ge" then pyLeP rhs lhs
  else if op = "lt" then pyLtP lhs rhs
  else if op = "le" then pyLeP lhs rhs
  else if op = "eq" then Except.ok (pyEqP lhs rhs)
  else if op = "ne" then Except.ok (!pyEqP lhs rhs)
  else Except.error (Err.unsupportedOp op)

/-- Node dataclass for the heap refinement (config as pure values). -/
structure NodeH where
  id : String
  tool : String
  config : List (String × PVal)

/-- Edge dataclass for the heap refinement. -/
structure EdgeH where
  from_node : String
  to_node : Option String
  condition_key : Option String
  condition_op : Option String
  condition_value : PVal
  true_target : Option String
  false_target : Option String

/-- Graph dataclass for the heap refinement. -/
structure GraphH where
  id : String
  name : String
  start_node : String
  nodes : String → Option NodeH
  edges : String → Option EdgeH

/-- StepLog in the heap refinement: state_snapshot is the address of the
deep-copied dict object, mirroring Python, where the snapshot field holds
an object reference. -/
structure StepLogH where
  step_index : Nat
  node_id : String
  tool : String
  state_snapshot : Nat

/-- StepLog of the value-level replay: state_snapshot is the value of the
working state immediately after the step's merge. -/
structure StepLogP where
  step_index : Nat
  node_id : String
  tool : String
  state_snapshot : List (String × PVal)

/-- Run record of the heap refinement; state is the working dict object. -/
structure RunH where
  graph_id : String
  status : String
  current_node : Option String
  state : Cell
  log : List StepLogH

/-- Tools of the heap refinement, per the §4.1 contract: a function of
the state's value and the node config returning fresh update values (or
raising). -/
def ToolH : Type :=
  List (String × PVal) → List (String × PVal) → Except Err (Option (List (String × PVal)))

/-- ToolRegistry.get for the heap refinement. -/
def getToolH (reg : String → Option ToolH) (name : String) : Except Err ToolH :=
  match reg name with
  | Option.none => Except.error (Err.toolNotFound name)
  | some f => Except.ok f

/-- Python `... or {}` on a tool's result. -/
def orEmptyP : Option (List (String × PVal)) → List (String × PVal)
  | Option.none => []
  | some u => u

/-- Value-level dict assignment (same shape as setKey). -/
def psetKey : List (String × PVal) → String → PVal → List (String × PVal)
  | [], k, v => [(k, v)]
  | (k0, v0) :: rest, k, v =>
    if k0 = k then (k0, v) :: rest else (k0, v0) :: psetKey rest k v

/-- Value-level dict.update. -/
def pdictUpdate (d u : List (String × PVal)) : List (String × PVal) :=
  u.foldl (fun acc kv => psetKey acc kv.1 kv.2) d

/-- Value-level dict lookup. -/
def plookup : List (String × PVal) → String → Option PVal
  | [], _ => Option.none
  | (k0, v) :: rest, k => if k0 = k then some v else plookup rest k

/-- GraphEngine._next_node_id over the heap: the comparison reads the
state's stored value for condition_key (materialising a referenced dict,
as Python hands the object itself to the comparison). -/
def nextNodeIdH (g : GraphH) (current_node_id : String) (h : Heap) (wd : Cell) :
    Except Err (Option String) :=
  match g.edges current_node_id with
  | Option.none => Except.ok Option.none
  | some edge =>
    match edge.condition_key, edge.condition_op with
    | some ck, some cop =>
      let value := match dictGet wd ck with
        | Option.none => PVal.none
        | some hv => matHV h hv
      match _compareH value cop edge.condition_value with
      | Except.error e => Except.error e
      | Except.ok r => Except.ok (if r then edge.true_target else edge.false_target)
    | _, _ => Except.ok edge.to_node

/-- GraphEngine._next_node_id over state values (the replay side). -/
def nextNodeIdP (g : GraphH) (current_node_id : String) (pd : List (String × PVal)) :
    Except Err (Option String) :=
  match g.edges current_node_id with
  | Option.none => Except.ok Option.none
  | some edge =>
    match edge.condition_key, edge.condition_op with
    | some ck, some cop =>
      let value := match plookup pd ck with
        | Option.none => PVal.none
        | some v => v
      match _compareH value cop edge.condition_value with
      | Except.error e => Except.error e
      | Except.ok r => Except.ok (if r then edge.true_target else edge.false_target)
    | _, _ => Except.ok edge.to_node

/-- The step loop of run_graph over the heap: invoke the tool on the
state's value, allocate its updates, merge them into the working dict in
place, deep-copy the state into a fresh snapshot object, log it, and move
to the next node. -/
def runLoopH (reg : String → Option ToolH) (g : GraphH) (step_index fuel : Nat)
    (current : Option String) (h : Heap) (wd : Cell) (logs : List StepLogH) :
    Except Err (String × Option String × Heap × Cell × List StepLogH) :=
  match fuel with
  | 0 => Except.ok ("failed", current, h, wd, logs)
  | fuel' + 1 =>
    match current with
    | Option.none => Except.ok ("completed", Option.none, h, wd, logs)
    | some cur =>
      match g.nodes cur with
      | Option.none => Except.ok ("failed", some cur, h, wd, logs)
      | some node =>
        match getToolH reg node.tool with
        | Except.error e => Except.error e
        | Except.ok tool =>
          match tool (matDict h wd) node.config with
          | Except.error e => Except.error e
          | Except.ok res =>
            let au := allocEntries h (orEmptyP res)
            let wd1 := dictUpdate wd au.2
            let dc := deepcopyDict au.1 wd1
            let h3 := dc.1 ++ [dc.2]
            let snapAddr := dc.1.length
            let logs1 := logs ++ [{ step_index := step_index, node_id := node.id,
                                    tool := node.tool, state_snapshot := snapAddr }]
            match nextNodeIdH g cur h3 wd1 with
            | Except.error e => Except.error e
            | Except.ok next => runLoopH reg g (step_index + 1) fuel' next h3 wd1 logs1

/-- The same step loop replayed on state values only: the snapshot
recorded for a step is, by construction, the value of the working state
immediately after that step's merge. -/
def runLoopP (reg : String → Option ToolH) (g : GraphH) (step_index fuel : Nat)
    (current : Option String) (pd : List (String × PVal)) (logs : List StepLogP) :
    Except Err (String × Option String × List (String × PVal) × List StepLogP) :=
  match fuel with
  | 0 => Except.ok ("failed", current, pd, logs)
  | fuel' + 1 =>
    match current with
    | Option.none => Except.ok ("completed", Option.none, pd, logs)
    | some cur =>
      match g.nodes cur with
      | Option.none => Except.ok ("failed", some cur, pd, logs)
      | some node =>
        match getToolH reg node.tool with
        | Except.error e => Except.error e
        | Except.ok tool =>
          match tool pd node.config with
          | Except.error e => Except.error e
          | Except.ok res =>
            let pd1 := pdictUpdate pd (orEmptyP res)
            let logs1 := logs ++ [{ step_index := step_index, node_id := node.id,
                                    tool := node.tool, state_snapshot := pd1 }]
            match nextNodeIdP g cur pd1 with
            | Except.error e => Except.error e
            | Except.ok next => runLoopP reg g (step_index + 1) fuel' next pd1 logs1

/-- run_graph over the heap: initAddr is the caller's initial_state dict
object; `dict(initial_state)` starts the working dict as a shallow copy of
its top-level bindings (references shared). -/
def runGraphH (reg : String → Option ToolH) (g : GraphH) (h0 : Heap) (initAddr : Nat)
    (max_steps : Nat) : Except Err (RunH × Heap) :=
  match runLoopH reg g 0 max_steps (some g.start_node) h0 (cellAt h0 initAddr) [] with
  | Except.error e => Except.error e
  | Except.ok (status, current, h, wd, logs) =>
    Except.ok ({ graph_id := g.id, status := status, current_node := current,
                 state := wd, log := logs }, h)

/-- Reachability through the heap's reference structure, descending only
to older cells, matching the materialisation guard. -/
inductive Reach (h : Heap) : Nat → Nat → Prop where
  | refl (a : Nat) : Reach h a a
  | step {a b c : Nat} (k : String) : (k, HVal.ref b) ∈ cellAt h a → b < a →
      Reach h b c → Reach h a c

/-- Every reference inside the cell lies below n. -/
def dictRefsBelow (c : Cell) (n : Nat) : Prop :=
  ∀ k b, (k, HVal.ref b) ∈ c → b < n

/-- Downward-closed heap: every cell references only strictly older
cells.  This invariant holds for every heap the executor builds. -/
def heapDC (h : Heap) : Prop := ∀ a, dictRefsBelow (cellAt h a) a

/-- The heap log and the replay log agree, and every recorded snapshot
object materialises to the replay's recorded state value. -/
def logsMatch (h : Heap) (hlogs : List StepLogH) (plogs : List StepLogP) : Prop :=
  List.Forall₂ (fun slH slP =>
    slH.step_index = slP.step_index ∧ slH.node_id = slP.node_id ∧ slH.tool = slP.tool
    ∧ slH.state_snapshot < h.length
    ∧ matCell h slH.state_snapshot = PVal.dict slP.state_snapshot) hlogs plogs

/-- No snapshot object shares any reachable cell with the working dict. -/
def snapDisjoint (h : Heap) (wd : Cell) (hlogs : List StepLogH) : Prop :=
  ∀ sl ∈ hlogs, ∀ k b, (k, HVal.ref b) ∈ wd →
    ∀ x, Reach h b x → ¬ Reach h sl.state_snapshot x

/-- Allocation postcondition for a single value: the heap is only
extended, fresh cells are downward-closed and reference only fresh cells,
and the stored value materialises back to the input. -/
def AllocValOk (h h1 : Heap) (hv : HVal) (v : PVal) : Prop :=
  (∃ ext, h1 = h ++ ext)
  ∧ (∀ a, h.length ≤ a → dictRefsBelow (cellAt h1 a) a)
  ∧ (∀ a, h.length ≤ a → ∀ k b, (k, HVal.ref b) ∈ cellAt h1 a → h.length ≤ b)
  ∧ matHV h1 hv = v
  ∧ (∀ b, hv = HVal.ref b → h.length ≤ b ∧ b < h1.length)

/-- Allocation postcondition for an update list. -/
def AllocEntriesOk (h h1 : Heap) (c : Cell) (u : List (String × PVal)) : Prop :=
  (∃ ext, h1 = h ++ ext)
  ∧ (∀ a, h.length ≤ a → dictRefsBelow (cellAt h1 a) a)
  ∧ (∀ a, h.length ≤ a → ∀ k b, (k, HVal.ref b) ∈ cellAt h1 a → h.length ≤ b)
  ∧ matDict h1 c = u
  ∧ (∀ k b, (k, HVal.ref b) ∈ c → h.length ≤ b ∧ b < h1.length)

/-- Deep-copy postcondition for a whole cell. -/
def DeepcopyCellOk (h h2 : Heap) (a a1 : Nat) : Prop :=
  (∃ ext, h2 = h ++ ext)
  ∧ (∀ x, h.length ≤ x → dictRefsBelow (cellAt h2 x) x)
  ∧ (∀ x, h.length ≤ x → ∀ k b, (k, HVal.ref b) ∈ cellAt h2 x → h.length ≤ b)
  ∧ matCell h2 a1 = matCell h a
  ∧ h.length ≤ a1 ∧ a1 < h2.length

/-- Deep-copy postcondition for a list of entries of the cell at a. -/
def DeepcopyEntriesOk (h h1 : Heap) (c c1 : Cell) : Prop :=
  (∃ ext, h1 = h ++ ext)
  ∧ (∀ x, h.length ≤ x → dictRefsBelow (cellAt h1 x) x)
  ∧ (∀ x, h.length ≤ x → ∀ k b, (k, HVal.ref b) ∈ cellAt h1 x → h.length ≤ b)
  ∧ matDict h1 c1 = matDict h c
  ∧ (∀ k b, (k, HVal.ref b) ∈ c1 → h.length ≤ b ∧ b < h1.length)

/-- Invariant carried by the heap executor relative to the value replay:
the heap is downward-closed, the working dict's references are live, the
two logs agree (with snapshots materialising to the replay's recorded
post-merge states), and no snapshot shares a cell with the working
dict. -/
def LoopInv (h : Heap) (wd : Cell) (hlogs : List StepLogH) (plogs : List StepLogP) : Prop :=
  heapDC h ∧ dictRefsBelow wd h.length ∧ logsMatch h hlogs plogs ∧ snapDisjoint h wd hlogs

/-- Tool fixture returning a nested dict update: it binds x to a fresh
one-entry dict mapping y to 1. -/
def tool7 : ToolH := fun _ _ => Except.ok (some [("x", PVal.dict [("y", PVal.int 1)])])

/-- Registry fixture binding "t" to tool7. -/
def reg7 : String → Option ToolH := fun k => if k = "t" then some tool7 else Option.none

/-- Single-node graph fixture for the heap refinement. -/
def g7 : GraphH :=
  { id := "g7", name := "w7", start_node := "a",
    nodes := fun k => if k = "a" then
        some { id := "a", tool := "t", config := [] } else Option.none,
    edges := fun _ => Option.none }

/-- Initial heap fixture: the caller's empty initial_state dict at address 0. -/
def h7heap0 : Heap := [[]]

/-- The Run produced by running g7 on h7heap0 with budget 2. -/
def run7 : RunH :=
  { graph_id := "g7", status := "completed", current_node := Option.none,
    state := [("x", HVal.ref 1)],
    log := [{ step_index := 0, node_id := "a", tool := "t", state_snapshot := 3 }] }

/-- The final heap of that run: the tool's nested dict at address 1, its
deep copy at address 2, and the snapshot dict at address 3. -/
def hF7 : Heap := [[], [("y", HVal.int 1)], [("y", HVal.int 1)], [("x", HVal.ref 2)]]

end HeapM

/-! ### Heap lemmas -/

namespace HeapM

theorem cellAt_append (h e : Heap) (a : Nat) (ha : a < h.length) :
    cellAt (h ++ e) a = cellAt h a := by
  simp [cellAt, List.getElem?_append_left ha]

theorem cellAt_concat_self (h : Heap) (c : Cell) : cellAt (h ++ [c]) h.length = c := by
  simp [cellAt]

theorem cellAt_oob (h : Heap) (a : Nat) (ha : h.length ≤ a) : cellAt h a = [] := by
  simp [cellAt, List.getElem?_eq_none ha]

theorem Reach_le {h : Heap} {a x : Nat} (r : Reach h a x) : x ≤ a := by
  induction r with
  | refl a2 => exact Nat.le_refl a2
  | step k mem hb r2 ih => omega

theorem Reach_mono {h h' : Heap} {a x : Nat} (r : Reach h a x) :
    (∀ b, b ≤ a → cellAt h' b = cellAt h b) → Reach h' a x := by
  induction r with
  | refl a2 => exact fun _ => Reach.refl a2
  | step k mem hb r2 ih =>
    intro hagree
    refine Reach.step k ?_ hb (ih fun b2 hb2 => hagree b2 (by omega))
    rw [hagree _ (Nat.le_refl _)]
    exact mem

theorem Reach_append {h e : Heap} {a x : Nat} (ha : a < h.length) :
    Reach (h ++ e) a x ↔ Reach h a x := by
  constructor
  · intro r
    exact Reach_mono r fun b hb => (cellAt_append h e b (by omega)).symm
  · intro r
    exact Reach_mono r fun b hb => cellAt_append h e b (by omega)

theorem Reach_ge {h : Heap} {n : Nat}
    (hext : ∀ a, n ≤ a → ∀ k b, (k, HVal.ref b) ∈ cellAt h a → n ≤ b) :
    ∀ {a x : Nat}, Reach h a x → n ≤ a → n ≤ x := by
  intro a x r
  induction r with
  | refl a2 => exact fun ha => ha
  | step k mem hb r2 ih => exact fun ha => ih (hext _ ha _ _ mem)

theorem matCell_congr (h : Heap) : ∀ (a : Nat) (h' : Heap),
    (∀ x, Reach h a x → cellAt h' x = cellAt h x) → matCell h' a = matCell h a := by
  apply matCell.induct h
    (fun a => ∀ h', (∀ x, Reach h a x → cellAt h' x = cellAt h x) →
      matCell h' a = matCell h a)
    (fun a c => ∀ h', (∀ x, Reach h a x → cellAt h' x = cellAt h x) →
      (∀ p, p ∈ c → p ∈ cellAt h a) → matEntries h' a c = matEntries h a c)
  · intro a ih h' hag
    have hcell : cellAt h' a = cellAt h a := hag a (Reach.refl a)
    rw [matCell, matCell, hcell]
    exact congrArg PVal.dict (ih h' hag fun p hp => hp)
  · intro a h' hag hmem
    simp [matEntries]
  · intro a k rest ih h' hag hmem
    rw [matEntries, matEntries]
    exact congrArg _ (ih h' hag fun p hp => hmem p (List.mem_cons_of_mem _ hp))
  · intro a k rest n ih h' hag hmem
    rw [matEntries, matEntries]
    exact congrArg _ (ih h' hag fun p hp => hmem p (List.mem_cons_of_mem _ hp))
  · intro a k rest s ih h' hag hmem
    rw [matEntries, matEntries]
    exact congrArg _ (ih h' hag fun p hp => hmem p (List.mem_cons_of_mem _ hp))
  · intro a k rest b hb ihb ih h' hag hmem
    rw [matEntries, matEntries]
    rw [dif_pos hb, dif_pos hb]
    have hmemb : (k, HVal.ref b) ∈ cellAt h a := hmem _ (List.mem_cons_self _ _)
    have hb2 : matCell h' b = matCell h b :=
      ihb h' fun x hx => hag x (Reach.step k hmemb hb hx)
    rw [hb2]
    exact congrArg _ (ih h' hag fun p hp => hmem p (List.mem_cons_of_mem _ hp))
  · intro a k rest b hb ih h' hag hmem
    rw [matEntries, matEntries]
    rw [dif_neg hb, dif_neg hb]
    exact congrArg _ (ih h' hag fun p hp => hmem p (List.mem_cons_of_mem _ hp))

theorem matCell_append (h e : Heap) (a : Nat) (ha : a < h.length) :
    matCell (h ++ e) a = matCell h a :=
  matCell_congr h a (h ++ e) fun x hx =>
    cellAt_append h e x (by have := Reach_le hx; omega)

theorem matDict_congr (h h' : Heap) (c : Cell)
    (hc : ∀ k b, (k, HVal.ref b) ∈ c → matCell h' b = matCell h b) :
    matDict h' c = matDict h c := by
  induction c with
  | nil => rfl
  | cons p rest ih =>
    obtain ⟨k, v⟩ := p
    rw [matDict, matDict, List.map_cons, List.map_cons]
    have hv : matHV h' v = matHV h v := by
      cases v with
      | none => rfl
      | int n => rfl
      | str s => rfl
      | ref b => exact hc k b (List.mem_cons_self _ _)
    rw [hv]
    have : matDict h' rest = matDict h rest :=
      ih fun k2 b2 hm => hc k2 b2 (List.mem_cons_of_mem _ hm)
    rw [matDict, matDict] at this
    rw [this]

theorem matDict_append (h e : Heap) (c : Cell) (hc : dictRefsBelow c h.length) :
    matDict (h ++ e) c = matDict h c :=
  matDict_congr h (h ++ e) c fun k b hm => matCell_append h e b (hc k b hm)

theorem matEntries_eq_matDict (h : Heap) (a : Nat) :
    ∀ c : Cell, (∀ k b, (k, HVal.ref b) ∈ c → b < a) → matEntries h a c = matDict h c := by
  intro c
  induction c with
  | nil => intro _; simp [matEntries, matDict]
  | cons p rest ih =>
    intro hc
    obtain ⟨k, v⟩ := p
    cases v with
    | none => rw [matEntries]; rw [ih fun k2 b2 hm => hc k2 b2 (List.mem_cons_of_mem _ hm)]; rfl
    | int n => rw [matEntries]; rw [ih fun k2 b2 hm => hc k2 b2 (List.mem_cons_of_mem _ hm)]; rfl
    | str s => rw [matEntries]; rw [ih fun k2 b2 hm => hc k2 b2 (List.mem_cons_of_mem _ hm)]; rfl
    | ref b =>
      rw [matEntries, dif_pos (hc k b (List.mem_cons_self _ _))]
      rw [ih fun k2 b2 hm => hc k2 b2 (List.mem_cons_of_mem _ hm)]
      rfl

theorem matCell_eq_matDict (h : Heap) (a : Nat) (ha : dictRefsBelow (cellAt h a) a) :
    matCell h a = PVal.dict (matDict h (cellAt h a)) := by
  rw [matCell]
  exact congrArg PVal.dict (matEntries_eq_matDict h a (cellAt h a) ha)

theorem setKey_ref_src {d : Cell} {k0 : String} {v0 : HVal} {k : String} {b : Nat} :
    ∀ _hp : (k, HVal.ref b) ∈ setKey d k0 v0,
      (∃ k2, (k2, HVal.ref b) ∈ d) ∨ v0 = HVal.ref b := by
  induction d with
  | nil =>
    intro hp
    simp [setKey] at hp
    exact Or.inr hp.2.symm
  | cons p rest ih =>
    obtain ⟨k1, v1⟩ := p
    intro hp
    rw [setKey] at hp
    by_cases hk : k1 = k0
    · rw [if_pos hk] at hp
      rcases List.mem_cons.mp hp with h1 | h1
      · exact Or.inr (by injection h1 with _ h2; exact h2.symm)
      · exact Or.inl ⟨k, List.mem_cons_of_mem _ h1⟩
    · rw [if_neg hk] at hp
      rcases List.mem_cons.mp hp with h1 | h1
      · injection h1 with hA hB
        exact Or.inl ⟨k1, by rw [hB.symm]; exact List.mem_cons_self _ _⟩
      · rcases ih h1 with h2 | h2
        · obtain ⟨k2, hk2⟩ := h2
          exact Or.inl ⟨k2, List.mem_cons_of_mem _ hk2⟩
        · exact Or.inr h2

theorem dictUpdate_ref_src {u : Cell} :
    ∀ {d : Cell} {k : String} {b : Nat}, (k, HVal.ref b) ∈ dictUpdate d u →
      (∃ k2, (k2, HVal.ref b) ∈ d) ∨ (∃ k2, (k2, HVal.ref b) ∈ u) := by
  induction u with
  | nil => exact fun hp => Or.inl ⟨_, hp⟩
  | cons p rest ih =>
    intro d k b hp
    obtain ⟨k1, v1⟩ := p
    simp only [dictUpdate, List.foldl_cons] at hp
    rcases ih hp with h1 | h1
    · obtain ⟨k2, hk2⟩ := h1
      rcases setKey_ref_src hk2 with h2 | h2
      · exact Or.inl h2
      · exact Or.inr ⟨k1, by rw [h2.symm]; exact List.mem_cons_self _ _⟩
    · obtain ⟨k2, hk2⟩ := h1
      exact Or.inr ⟨k2, List.mem_cons_of_mem _ hk2⟩

theorem matDict_setKey (h : Heap) (c : Cell) (k : String) (v : HVal) :
    matDict h (setKey c k v) = psetKey (matDict h c) k (matHV h v) := by
  induction c with
  | nil => simp [setKey, psetKey, matDict]
  | cons p rest ih =>
    obtain ⟨k1, v1⟩ := p
    rw [setKey]
    by_cases hk : k1 = k
    · rw [if_pos hk]
      show (k1, matHV h v) :: matDict h rest
        = psetKey ((k1, matHV h v1) :: matDict h rest) k (matHV h v)
      rw [psetKey, if_pos hk]
    · rw [if_neg hk]
      show (k1, matHV h v1) :: matDict h (setKey rest k v)
        = psetKey ((k1, matHV h v1) :: matDict h rest) k (matHV h v)
      rw [psetKey, if_neg hk, ih]

theorem matDict_dictUpdate (h : Heap) (u : Cell) :
    ∀ d : Cell, matDict h (dictUpdate d u) = pdictUpdate (matDict h d) (matDict h u) := by
  induction u with
  | nil => intro d; simp [dictUpdate, pdictUpdate, matDict]
  | cons p rest ih =>
    intro d
    obtain ⟨k1, v1⟩ := p
    show matDict h (dictUpdate (setKey d k1 v1) rest)
      = pdictUpdate (matDict h d) ((k1, matHV h v1) :: matDict h rest)
    rw [ih (setKey d k1 v1), matDict_setKey]
    show pdictUpdate (psetKey (matDict h d) k1 (matHV h v1)) (matDict h rest)
      = pdictUpdate (matDict h d) ((k1, matHV h v1) :: matDict h rest)
    rfl

theorem plookup_matDict (h : Heap) (c : Cell) (k : String) :
    plookup (matDict h c) k = Option.map (matHV h) (dictGet c k) := by
  induction c with
  | nil => simp [plookup, dictGet, matDict]
  | cons p rest ih =>
    obtain ⟨k1, v1⟩ := p
    simp only [matDict, List.map_cons, plookup, dictGet]
    by_cases hk : k1 = k
    · rw [if_pos hk, if_pos hk]
      rfl
    · rw [if_neg hk, if_neg hk]
      rw [matDict] at ih
      exact ih

theorem dictRefsBelow_mono {c : Cell} {n m : Nat} (hc : dictRefsBelow c n) (hnm : n ≤ m) :
    dictRefsBelow c m := fun k b hm => by have := hc k b hm; omega

theorem AllocValOk_atom (h : Heap) {hv : HVal} {v : PVal} (hmat : matHV h hv = v)
    (hatom : ∀ b, hv ≠ HVal.ref b) : AllocValOk h h hv v := by
  refine ⟨⟨[], by simp⟩, ?_, ?_, hmat, fun b hb => absurd hb (hatom b)⟩
  · intro a ha
    rw [cellAt_oob _ _ ha]
    intro k b hm
    cases hm
  · intro a ha
    rw [cellAt_oob _ _ ha]
    intro k b hm
    cases hm

/-- Combined allocation facts, proven simultaneously for allocVal and
allocEntries. -/
theorem alloc_spec :
    (∀ (h : Heap) (v : PVal), ∀ h1 hv, allocVal h v = (h1, hv) → AllocValOk h h1 hv v)
    ∧ (∀ (h : Heap) (u : List (String × PVal)), ∀ h1 c, allocEntries h u = (h1, c) →
        AllocEntriesOk h h1 c u) := by
  apply allocVal.mutual_induct
    (fun h v => ∀ h1 hv, allocVal h v = (h1, hv) → AllocValOk h h1 hv v)
    (fun h u => ∀ h1 c, allocEntries h u = (h1, c) → AllocEntriesOk h h1 c u)
  · intro h0 h1 hv heq
    rw [allocVal] at heq
    injection heq with he1 he2
    subst he1; subst he2
    exact AllocValOk_atom h0 rfl (fun b hb => by cases hb)
  · intro h0 n h1 hv heq
    rw [allocVal] at heq
    injection heq with he1 he2
    subst he1; subst he2
    exact AllocValOk_atom h0 rfl (fun b hb => by cases hb)
  · intro h0 s h1 hv heq
    rw [allocVal] at heq
    injection heq with he1 he2
    subst he1; subst he2
    exact AllocValOk_atom h0 rfl (fun b hb => by cases hb)
  · intro h0 entries h1 c hae ih h2 hv heq
    rw [allocVal, hae] at heq
    injection heq with he1 he2
    subst he1; subst he2
    obtain ⟨⟨ext, hext⟩, hdc, hge, hmat, hrefs⟩ := ih h1 c hae
    have hlen1 : h0.length ≤ h1.length := by rw [hext]; simp
    have hrefsb : dictRefsBelow c h1.length := fun k b hm => (hrefs k b hm).2
    refine ⟨⟨ext ++ [c], by rw [hext]; simp⟩, ?_, ?_, ?_, ?_⟩
    · intro a ha
      rcases Nat.lt_trichotomy a h1.length with hlt | heqa | hgt
      · rw [cellAt_append _ _ _ hlt]
        exact hdc a ha
      · subst heqa
        rw [cellAt_concat_self]
        exact hrefsb
      · rw [cellAt_oob _ _ (by simp; omega)]
        intro k b hm
        cases hm
    · intro a ha
      rcases Nat.lt_trichotomy a h1.length with hlt | heqa | hgt
      · rw [cellAt_append _ _ _ hlt]
        exact hge a ha
      · subst heqa
        rw [cellAt_concat_self]
        exact fun k b hm => (hrefs k b hm).1
      · rw [cellAt_oob _ _ (by simp; omega)]
        intro k b hm
        cases hm
    · show matCell (h1 ++ [c]) h1.length = PVal.dict entries
      rw [matCell_eq_matDict _ _ (by rw [cellAt_concat_self]; exact hrefsb)]
      rw [cellAt_concat_self]
      rw [matDict_append _ _ _ hrefsb, hmat]
    · intro b hb
      injection hb with hb2
      subst hb2
      constructor
      · omega
      · simp
  · intro h0 h1 c heq
    rw [allocEntries] at heq
    injection heq with he1 he2
    subst he1; subst he2
    refine ⟨⟨[], by simp⟩, ?_, ?_, rfl, by intro k b hm; cases hm⟩
    · intro a ha
      rw [cellAt_oob _ _ ha]
      intro k b hm
      cases hm
    · intro a ha
      rw [cellAt_oob _ _ ha]
      intro k b hm
      cases hm
  · intro h0 k v rest h1 hv hav h2 c hae ih1 ih2 h3 c2 heq
    rw [allocEntries] at heq
    simp only [hav, hae] at heq
    injection heq with he1 he2
    subst he1; subst he2
    obtain ⟨⟨ext1, hext1⟩, hdc1, hge1, hmat1, hrefs1⟩ := ih1 h1 hv hav
    obtain ⟨⟨ext2, hext2⟩, hdc2, hge2, hmat2, hrefs2⟩ := ih2 h2 c hae
    have hlen1 : h0.length ≤ h1.length := by rw [hext1]; simp
    have hlen2 : h1.length ≤ h2.length := by rw [hext2]; simp
    refine ⟨⟨ext1 ++ ext2, by rw [hext2, hext1]; simp⟩, ?_, ?_, ?_, ?_⟩
    · intro a ha
      by_cases hlt : a < h1.length
      · rw [hext2, cellAt_append _ _ _ hlt]
        exact hdc1 a ha
      · exact hdc2 a (by omega)
    · intro a ha
      by_cases hlt : a < h1.length
      · rw [hext2, cellAt_append _ _ _ hlt]
        exact hge1 a ha
      · intro k2 b hm
        have := hge2 a (by omega) k2 b hm
        omega
    · show matDict h2 ((k, hv) :: c) = (k, v) :: rest
      have hhv : matHV h2 hv = v := by
        cases hv with
        | none => exact hmat1
        | int n => exact hmat1
        | str s => exact hmat1
        | ref b =>
          have hb := hrefs1 b rfl
          rw [matHV] at hmat1 ⊢
          rw [hext2, matCell_append _ _ _ hb.2]
          exact hmat1
      show (k, matHV h2 hv) :: matDict h2 c = (k, v) :: rest
      rw [hhv, hmat2]
    · intro k2 b hm
      rcases List.mem_cons.mp hm with h4 | h4
      · injection h4 with h5 h6
        have := hrefs1 b h6.symm
        omega
      · have := hrefs2 k2 b h4
        omega

theorem allocEntries_spec (h : Heap) (u : List (String × PVal)) (h1 : Heap) (c : Cell)
    (heq : allocEntries h u = (h1, c)) : AllocEntriesOk h h1 c u :=
  alloc_spec.2 h u h1 c heq

theorem heapDC_of_ext {h h1 : Heap} (hdc : heapDC h) (hext : ∃ ext, h1 = h ++ ext)
    (hfresh : ∀ x, h.length ≤ x → dictRefsBelow (cellAt h1 x) x) : heapDC h1 := by
  intro a
  obtain ⟨ext, rfl⟩ := hext
  by_cases hlt : a < h.length
  · rw [cellAt_append _ _ _ hlt]
    exact hdc a
  · exact hfresh a (by omega)

/-- Combined deep-copy facts on downward-closed heaps: only appends to the
heap, every copied cell is fresh, downward-closed and references only
fresh cells, and every copy materialises to the same value as its
source. -/
theorem deepcopy_spec :
    (∀ (h : Heap) (a : Nat), heapDC h → ∀ h2 a1, deepcopyCell h a = (h2, a1) →
      DeepcopyCellOk h h2 a a1)
    ∧ (∀ (h : Heap) (a : Nat) (c : Cell), heapDC h → dictRefsBelow c a →
        dictRefsBelow c h.length → ∀ h1 c1, deepcopyEntries h a c = (h1, c1) →
        DeepcopyEntriesOk h h1 c c1) := by
  apply deepcopyCell.mutual_induct
    (fun h a => heapDC h → ∀ h2 a1, deepcopyCell h a = (h2, a1) →
      DeepcopyCellOk h h2 a a1)
    (fun h a c => heapDC h → dictRefsBelow c a → dictRefsBelow c h.length →
      ∀ h1 c1, deepcopyEntries h a c = (h1, c1) → DeepcopyEntriesOk h h1 c c1)
  · intro h a h1 c hde ih hdc h2 a1 heq
    rw [deepcopyCell] at heq
    simp only [hde] at heq
    injection heq with he1 he2
    subst he1; subst he2
    have hbelow_a : dictRefsBelow (cellAt h a) a := hdc a
    have hbelow_len : dictRefsBelow (cellAt h a) h.length := by
      by_cases hlt : a < h.length
      · exact dictRefsBelow_mono (hdc a) (by omega)
      · rw [cellAt_oob _ _ (by omega)]
        intro k b hm
        cases hm
    obtain ⟨⟨ext, hext⟩, hdcf, hgef, hmat, hrefs⟩ := ih hdc hbelow_a hbelow_len h1 c hde
    have hlen1 : h.length ≤ h1.length := by rw [hext]; simp
    have hrefsb : dictRefsBelow c h1.length := fun k b hm => (hrefs k b hm).2
    refine ⟨⟨ext ++ [c], by rw [hext]; simp⟩, ?_, ?_, ?_, by omega, by simp⟩
    · intro x hx
      rcases Nat.lt_trichotomy x h1.length with hlt | heqa | hgt
      · rw [cellAt_append _ _ _ hlt]
        exact hdcf x hx
      · subst heqa
        rw [cellAt_concat_self]
        exact hrefsb
      · rw [cellAt_oob _ _ (by simp; omega)]
        intro k b hm
        cases hm
    · intro x hx
      rcases Nat.lt_trichotomy x h1.length with hlt | heqa | hgt
      · rw [cellAt_append _ _ _ hlt]
        exact hgef x hx
      · subst heqa
        rw [cellAt_concat_self]
        exact fun k b hm => (hrefs k b hm).1
      · rw [cellAt_oob _ _ (by simp; omega)]
        intro k b hm
        cases hm
    · rw [matCell_eq_matDict _ _ (by rw [cellAt_concat_self]; exact hrefsb)]
      rw [cellAt_concat_self]
      rw [matDict_append _ _ _ hrefsb, hmat]
      rw [matCell_eq_matDict _ _ hbelow_a]
  · intro h a hdc hba hbl h1 c1 heq
    rw [deepcopyEntries] at heq
    injection heq with he1 he2
    subst he1; subst he2
    refine ⟨⟨[], by simp⟩, ?_, ?_, rfl, by intro k b hm; cases hm⟩
    · intro x hx
      rw [cellAt_oob _ _ hx]
      intro k b hm
      cases hm
    · intro x hx
      rw [cellAt_oob _ _ hx]
      intro k b hm
      cases hm
  · intro h a k rest b hb h1 b1 hdcc h2 c hde ih1 ih2 hdc hba hbl h3 c2 heq
    rw [deepcopyEntries] at heq
    simp only [dif_pos hb, hdcc, hde] at heq
    injection heq with he1 he2
    subst he1; subst he2
    obtain ⟨⟨ext1, hext1⟩, hdc1, hge1, hmat1, hb1low, hb1high⟩ := ih1 hdc h1 b1 hdcc
    have hdch1 : heapDC h1 := heapDC_of_ext hdc ⟨ext1, hext1⟩ hdc1
    have hlen1 : h.length ≤ h1.length := by rw [hext1]; simp
    have hrest_a : dictRefsBelow rest a :=
      fun k2 b2 hm => hba k2 b2 (List.mem_cons_of_mem _ hm)
    have hrest_len : dictRefsBelow rest h1.length :=
      fun k2 b2 hm => by have := hbl k2 b2 (List.mem_cons_of_mem _ hm); omega
    obtain ⟨⟨ext2, hext2⟩, hdc2, hge2, hmat2, hrefs2⟩ := ih2 hdch1 hrest_a hrest_len h2 c hde
    have hlen2 : h1.length ≤ h2.length := by rw [hext2]; simp
    refine ⟨⟨ext1 ++ ext2, by rw [hext2, hext1]; simp⟩, ?_, ?_, ?_, ?_⟩
    · intro x hx
      by_cases hlt : x < h1.length
      · rw [hext2, cellAt_append _ _ _ hlt]
        exact hdc1 x hx
      · exact hdc2 x (by omega)
    · intro x hx
      by_cases hlt : x < h1.length
      · rw [hext2, cellAt_append _ _ _ hlt]
        exact hge1 x hx
      · intro k2 b2 hm
        have := hge2 x (by omega) k2 b2 hm
        omega
    · show (k, matHV h2 (HVal.ref b1)) :: matDict h2 c
        = (k, matHV h (HVal.ref b)) :: matDict h rest
      rw [matHV, matHV]
      have hmrest : matDict h1 rest = matDict h rest := by
        rw [hext1]
        exact matDict_append _ _ _
          (fun k2 b2 hm => hbl k2 b2 (List.mem_cons_of_mem _ hm))
      rw [hmat2, hmrest]
      rw [hext2, matCell_append _ _ _ hb1high, hmat1]
    · intro k2 b2 hm
      rcases List.mem_cons.mp hm with h4 | h4
      · injection h4 with h5 h6
        injection h6 with h7
        omega
      · have := hrefs2 k2 b2 h4
        omega
  · intro h a k rest b hb h1 c hde ih hdc hba hbl h2 c2 heq
    exact absurd (hba k b (List.mem_cons_self _ _)) hb
  · intro h a k rest w hw h1 c hde ih hdc hba hbl h2 c2 heq
    have hrest_a : dictRefsBelow rest a :=
      fun k2 b2 hm => hba k2 b2 (List.mem_cons_of_mem _ hm)
    have hrest_len : dictRefsBelow rest h.length :=
      fun k2 b2 hm => hbl k2 b2 (List.mem_cons_of_mem _ hm)
    obtain ⟨⟨ext1, hext1⟩, hdc1, hge1, hmat1, hrefs1⟩ := ih hdc hrest_a hrest_len h1 c hde
    cases w with
    | ref b2 => exact absurd rfl (hw b2)
    | none =>
      rw [deepcopyEntries] at heq
      simp only [hde] at heq
      injection heq with he1 he2
      subst he1; subst he2
      refine ⟨⟨ext1, hext1⟩, hdc1, hge1, ?_, ?_⟩
      · show (k, PVal.none) :: matDict h1 c = (k, PVal.none) :: matDict h rest
        rw [hmat1]
      · intro k2 b2 hm
        rcases List.mem_cons.mp hm with h4 | h4
        · injection h4 with h5 h6
          cases h6
        · exact hrefs1 k2 b2 h4
      intro b3 hb3
      cases hb3
    | int n =>
      rw [deepcopyEntries] at heq
      simp only [hde] at heq
      injection heq with he1 he2
      subst he1; subst he2
      refine ⟨⟨ext1, hext1⟩, hdc1, hge1, ?_, ?_⟩
      · show (k, PVal.int n) :: matDict h1 c = (k, PVal.int n) :: matDict h rest
        rw [hmat1]
      · intro k2 b2 hm
        rcases List.mem_cons.mp hm with h4 | h4
        · injection h4 with h5 h6
          cases h6
        · exact hrefs1 k2 b2 h4
      intro b3 hb3
      cases hb3
    | str s =>
      rw [deepcopyEntries] at heq
      simp only [hde] at heq
      injection heq with he1 he2
      subst he1; subst he2
      refine ⟨⟨ext1, hext1⟩, hdc1, hge1, ?_, ?_⟩
      · show (k, PVal.str s) :: matDict h1 c = (k, PVal.str s) :: matDict h rest
        rw [hmat1]
      · intro k2 b2 hm
        rcases List.mem_cons.mp hm with h4 | h4
        · injection h4 with h5 h6
          cases h6
        · exact hrefs1 k2 b2 h4
      intro b3 hb3
      cases hb3

/-- Deep-copy facts for the working dict (the executor's snapshot step):
the heap is only extended, the copied entries reference exclusively fresh,
downward-closed cells, and the copy materialises to the same value. -/
theorem deepcopyDict_spec (wd : Cell) : ∀ (h : Heap), heapDC h →
    dictRefsBelow wd h.length → ∀ h2 c1, deepcopyDict h wd = (h2, c1) →
      (∃ ext, h2 = h ++ ext)
      ∧ (∀ x, h.length ≤ x → dictRefsBelow (cellAt h2 x) x)
      ∧ (∀ x, h.length ≤ x → ∀ k b, (k, HVal.ref b) ∈ cellAt h2 x → h.length ≤ b)
      ∧ matDict h2 c1 = matDict h wd
      ∧ (∀ k b, (k, HVal.ref b) ∈ c1 → h.length ≤ b ∧ b < h2.length) := by
  induction wd with
  | nil =>
    intro h hdc hbl h2 c1 heq
    rw [deepcopyDict] at heq
    injection heq with he1 he2
    subst he1; subst he2
    refine ⟨⟨[], by simp⟩, ?_, ?_, rfl, by intro k b hm; cases hm⟩
    · intro x hx
      rw [cellAt_oob _ _ hx]
      intro k b hm
      cases hm
    · intro x hx
      rw [cellAt_oob _ _ hx]
      intro k b hm
      cases hm
  | cons p rest ih =>
    intro h hdc hbl h3 c2 heq
    obtain ⟨k, v⟩ := p
    have hrest_len : dictRefsBelow rest h.length :=
      fun k2 b2 hm => hbl k2 b2 (List.mem_cons_of_mem _ hm)
    cases v with
    | ref b =>
      rcases hdcc : deepcopyCell h b with ⟨h1, b1⟩
      rcases hdd : deepcopyDict h1 rest with ⟨h2, c⟩
      rw [deepcopyDict] at heq
      simp only [hdcc, hdd] at heq
      injection heq with he1 he2
      subst he1; subst he2
      obtain ⟨⟨ext1, hext1⟩, hdc1, hge1, hmat1, hb1low, hb1high⟩ :=
        deepcopy_spec.1 h b hdc h1 b1 hdcc
      have hdch1 : heapDC h1 := heapDC_of_ext hdc ⟨ext1, hext1⟩ hdc1
      have hlen1 : h.length ≤ h1.length := by rw [hext1]; simp
      have hrest_len1 : dictRefsBelow rest h1.length :=
        fun k2 b2 hm => by have := hrest_len k2 b2 hm; omega
      obtain ⟨⟨ext2, hext2⟩, hdc2, hge2, hmat2, hrefs2⟩ := ih h1 hdch1 hrest_len1 h2 c hdd
      have hlen2 : h1.length ≤ h2.length := by rw [hext2]; simp
      refine ⟨⟨ext1 ++ ext2, by rw [hext2, hext1]; simp⟩, ?_, ?_, ?_, ?_⟩
      · intro x hx
        by_cases hlt : x < h1.length
        · rw [hext2, cellAt_append _ _ _ hlt]
          exact hdc1 x hx
        · exact hdc2 x (by omega)
      · intro x hx
        by_cases hlt : x < h1.length
        · rw [hext2, cellAt_append _ _ _ hlt]
          exact hge1 x hx
        · intro k2 b2 hm
          have := hge2 x (by omega) k2 b2 hm
          omega
      · show (k, matHV h2 (HVal.ref b1)) :: matDict h2 c
          = (k, matHV h (HVal.ref b)) :: matDict h rest
        rw [matHV, matHV]
        have hmrest : matDict h1 rest = matDict h rest := by
          rw [hext1]
          exact matDict_append _ _ _ hrest_len
        rw [hmat2, hmrest]
        rw [hext2, matCell_append _ _ _ hb1high, hmat1]
      · intro k2 b2 hm
        rcases List.mem_cons.mp hm with h4 | h4
        · injection h4 with h5 h6
          injection h6 with h7
          omega
        · have := hrefs2 k2 b2 h4
          omega
    | none =>
      rcases hdd : deepcopyDict h rest with ⟨h1, c⟩
      rw [deepcopyDict] at heq
      simp only [hdd] at heq
      injection heq with he1 he2
      subst he1; subst he2
      obtain ⟨hext1, hdc1, hge1, hmat1, hrefs1⟩ := ih h hdc hrest_len h1 c hdd
      refine ⟨hext1, hdc1, hge1, ?_, ?_⟩
      · show (k, PVal.none) :: matDict h1 c = (k, PVal.none) :: matDict h rest
        rw [hmat1]
      · intro k2 b2 hm
        rcases List.mem_cons.mp hm with h4 | h4
        · injection h4 with h5 h6
          cases h6
        · exact hrefs1 k2 b2 h4
      intro b3 hb3
      cases hb3
    | int n =>
      rcases hdd : deepcopyDict h rest with ⟨h1, c⟩
      rw [deepcopyDict] at heq
      simp only [hdd] at heq
      injection heq with he1 he2
      subst he1; subst he2
      obtain ⟨hext1, hdc1, hge1, hmat1, hrefs1⟩ := ih h hdc hrest_len h1 c hdd
      refine ⟨hext1, hdc1, hge1, ?_, ?_⟩
      · show (k, PVal.int n) :: matDict h1 c = (k, PVal.int n) :: matDict h rest
        rw [hmat1]
      · intro k2 b2 hm
        rcases List.mem_cons.mp hm with h4 | h4
        · injection h4 with h5 h6
          cases h6
        · exact hrefs1 k2 b2 h4
      intro b3 hb3
      cases hb3
    | str s =>
      rcases hdd : deepcopyDict h rest with ⟨h1, c⟩
      rw [deepcopyDict] at heq
      simp only [hdd] at heq
      injection heq with he1 he2
      subst he1; subst he2
      obtain ⟨hext1, hdc1, hge1, hmat1, hrefs1⟩ := ih h hdc hrest_len h1 c hdd
      refine ⟨hext1, hdc1, hge1, ?_, ?_⟩
      · show (k, PVal.str s) :: matDict h1 c = (k, PVal.str s) :: matDict h rest
        rw [hmat1]
      · intro k2 b2 hm
        rcases List.mem_cons.mp hm with h4 | h4
        · injection h4 with h5 h6
          cases h6
        · exact hrefs1 k2 b2 h4
      intro b3 hb3
      cases hb3

/-- The heap-side resolver agrees with the value-side resolver on the
materialised state. -/
theorem nextNodeIdH_corr (g : GraphH) (cur : String) (h : Heap) (wd : Cell) :
    nextNodeIdH g cur h wd = nextNodeIdP g cur (matDict h wd) := by
  rw [nextNodeIdH, nextNodeIdP]
  rcases g.edges cur with _ | edge
  · rfl
  · obtain ⟨fn, tn, ck0, cop0, cv, tt, ft⟩ := edge
    cases ck0 with
    | none => rfl
    | some ck =>
      cases cop0 with
      | none => rfl
      | some cop =>
        simp only [plookup_matDict]
        cases hdg : dictGet wd ck with
        | none => rfl
        | some hv => rfl

theorem logsMatch_snapBelow {h : Heap} {hlogs : List StepLogH} {plogs : List StepLogP}
    (hm : logsMatch h hlogs plogs) : ∀ sl ∈ hlogs, sl.state_snapshot < h.length := by
  induction hm with
  | nil => intro sl hsl; cases hsl
  | cons hrel hrest ih =>
    intro sl hsl
    rcases List.mem_cons.mp hsl with h1 | h1
    · subst h1
      exact hrel.2.2.2.1
    · exact ih sl h1

theorem logsMatch_ext {h : Heap} (ext : Heap) {hlogs : List StepLogH}
    {plogs : List StepLogP} (hm : logsMatch h hlogs plogs) :
    logsMatch (h ++ ext) hlogs plogs := by
  refine List.Forall₂.imp ?_ hm
  intro slH slP hrel
  obtain ⟨h1, h2, h3, h4, h5⟩ := hrel
  refine ⟨h1, h2, h3, by simp; omega, ?_⟩
  rw [matCell_append _ _ _ h4]
  exact h5

theorem forall2_app {α β : Type} {R : α → β → Prop} :
    ∀ {l1 l2 : List α} {u1 u2 : List β}, List.Forall₂ R l1 u1 → List.Forall₂ R l2 u2 →
      List.Forall₂ R (l1 ++ l2) (u1 ++ u2) := by
  intro l1 l2 u1 u2 h1 h2
  induction h1 with
  | nil => simpa using h2
  | cons hr ht ih => exact List.Forall₂.cons hr ih

/-- Simulation of the heap step loop by the value replay: from any
invariant-satisfying configuration the two loops take the same branches,
raise the same errors, and on success the final working dict materialises
to the replay's final state while the heap is only ever extended and the
invariant is maintained. -/
theorem runLoopH_sim (reg : String → Option ToolH) (g : GraphH) :
    ∀ (fuel si : Nat) (cur : Option String) (h : Heap) (wd : Cell)
      (hlogs : List StepLogH) (plogs : List StepLogP),
      LoopInv h wd hlogs plogs →
      (∀ e1, runLoopH reg g si fuel cur h wd hlogs = Except.error e1 →
          runLoopP reg g si fuel cur (matDict h wd) plogs = Except.error e1)
      ∧ (∀ st c h2 wd2 hlogs2,
          runLoopH reg g si fuel cur h wd hlogs = Except.ok (st, c, h2, wd2, hlogs2) →
          ∃ plogs2, runLoopP reg g si fuel cur (matDict h wd) plogs
              = Except.ok (st, c, matDict h2 wd2, plogs2)
            ∧ (∃ ext, h2 = h ++ ext)
            ∧ LoopInv h2 wd2 hlogs2 plogs2) := by
  intro fuel
  induction fuel with
  | zero =>
    intro si cur h wd hlogs plogs hinv
    constructor
    · intro e1 h1
      rw [runLoopH] at h1
      cases h1
    · intro st c h2 wd2 hlogs2 h1
      simp only [runLoopH, Except.ok.injEq, Prod.mk.injEq] at h1
      obtain ⟨h1a, h1b, h1c, h1d, h1e⟩ := h1
      subst h1a; subst h1b; subst h1c; subst h1d; subst h1e
      exact ⟨plogs, by rw [runLoopP], ⟨[], by simp⟩, hinv⟩
  | succ f ih =>
    intro si cur h wd hlogs plogs hinv
    obtain ⟨hdc, hwb, hlm, hsd⟩ := hinv
    cases cur with
    | none =>
      constructor
      · intro e1 h1
        rw [runLoopH] at h1
        cases h1
      · intro st c h2 wd2 hlogs2 h1
        simp only [runLoopH, Except.ok.injEq, Prod.mk.injEq] at h1
        obtain ⟨h1a, h1b, h1c, h1d, h1e⟩ := h1
        subst h1a; subst h1b; subst h1c; subst h1d; subst h1e
        exact ⟨plogs, by rw [runLoopP], ⟨[], by simp⟩, hdc, hwb, hlm, hsd⟩
    | some c =>
      rcases hnode : g.nodes c with _ | node
      · constructor
        · intro e1 h1
          simp only [runLoopH, hnode] at h1
          cases h1
        · intro st c2 h2 wd2 hlogs2 h1
          simp only [runLoopH, hnode, Except.ok.injEq, Prod.mk.injEq] at h1
          obtain ⟨h1a, h1b, h1c, h1d, h1e⟩ := h1
          subst h1a; subst h1b; subst h1c; subst h1d; subst h1e
          refine ⟨plogs, ?_, ⟨[], by simp⟩, hdc, hwb, hlm, hsd⟩
          simp only [runLoopP, hnode]
      · rcases hgt : getToolH reg node.tool with e | tool
        · have hH : runLoopH reg g si (f + 1) (some c) h wd hlogs = Except.error e := by
            simp only [runLoopH, hnode, hgt]
          have hP : runLoopP reg g si (f + 1) (some c) (matDict h wd) plogs
              = Except.error e := by
            simp only [runLoopP, hnode, hgt]
          constructor
          · intro e1 h1
            rw [hH] at h1
            injection h1 with h2
            subst h2
            exact hP
          · intro st c2 h2 wd2 hlogs2 h1
            rw [hH] at h1
            cases h1
        · rcases htr : tool (matDict h wd) node.config with e | res
          · have hH : runLoopH reg g si (f + 1) (some c) h wd hlogs = Except.error e := by
              simp only [runLoopH, hnode, hgt, htr]
            have hP : runLoopP reg g si (f + 1) (some c) (matDict h wd) plogs
                = Except.error e := by
              simp only [runLoopP, hnode, hgt, htr]
            constructor
            · intro e1 h1
              rw [hH] at h1
              injection h1 with h2
              subst h2
              exact hP
            · intro st c2 h2 wd2 hlogs2 h1
              rw [hH] at h1
              cases h1
          · rcases hal : allocEntries h (orEmptyP res) with ⟨h1, uCell⟩
            obtain ⟨⟨ext1, hext1⟩, hAdc, hAge, hAmat, hArefs⟩ :=
              allocEntries_spec h (orEmptyP res) h1 uCell hal
            have hlen1 : h.length ≤ h1.length := by rw [hext1]; simp
            have hdch1 : heapDC h1 := heapDC_of_ext hdc ⟨ext1, hext1⟩ hAdc
            have hwd1b : dictRefsBelow (dictUpdate wd uCell) h1.length := by
              intro k b hm
              rcases dictUpdate_ref_src hm with ⟨k2, hk2⟩ | ⟨k2, hk2⟩
              · have := hwb k2 b hk2
                omega
              · exact (hArefs k2 b hk2).2
            have hmat1 : matDict h1 (dictUpdate wd uCell)
                = pdictUpdate (matDict h wd) (orEmptyP res) := by
              rw [matDict_dictUpdate, hAmat, hext1, matDict_append _ _ _ hwb]
            rcases hdd : deepcopyDict h1 (dictUpdate wd uCell) with ⟨h2x, snapCell⟩
            obtain ⟨⟨ext2, hext2⟩, hDdc, hDge, hDmat, hDrefs⟩ :=
              deepcopyDict_spec _ h1 hdch1 hwd1b h2x snapCell hdd
            have hlen2 : h1.length ≤ h2x.length := by rw [hext2]; simp
            have hsnapb : dictRefsBelow snapCell h2x.length :=
              fun k b hm => (hDrefs k b hm).2
            have hE3 : h2x ++ [snapCell] = h ++ (ext1 ++ (ext2 ++ [snapCell])) := by
              rw [hext2, hext1]
              simp
            have hE3b : h2x ++ [snapCell] = h1 ++ (ext2 ++ [snapCell]) := by
              rw [hext2]
              simp
            have hdch3 : heapDC (h2x ++ [snapCell]) := by
              refine heapDC_of_ext (heapDC_of_ext hdch1 ⟨ext2, hext2⟩ hDdc)
                ⟨[snapCell], rfl⟩ ?_
              intro x hx
              rcases Nat.lt_trichotomy x h2x.length with hlt | heqa | hgtx
              · omega
              · subst heqa
                rw [cellAt_concat_self]
                exact hsnapb
              · rw [cellAt_oob _ _ (by simp; omega)]
                intro k b hm
                cases hm
            have hwd1b3 : dictRefsBelow (dictUpdate wd uCell) (h2x ++ [snapCell]).length := by
              intro k b hm
              have := hwd1b k b hm
              simp
              omega
            have hsnapmat : matCell (h2x ++ [snapCell]) h2x.length
                = PVal.dict (pdictUpdate (matDict h wd) (orEmptyP res)) := by
              rw [matCell_eq_matDict _ _ (by rw [cellAt_concat_self]; exact hsnapb)]
              rw [cellAt_concat_self]
              rw [matDict_append _ _ _ hsnapb, hDmat, hmat1]
            have hge3_h1 : ∀ a, h1.length ≤ a →
                ∀ k b, (k, HVal.ref b) ∈ cellAt (h2x ++ [snapCell]) a → h1.length ≤ b := by
              intro a ha k b hm
              rcases Nat.lt_trichotomy a h2x.length with hlt | heqa | hgtx
              · rw [cellAt_append _ _ _ hlt] at hm
                exact hDge a ha k b hm
              · subst heqa
                rw [cellAt_concat_self] at hm
                exact (hDrefs k b hm).1
              · rw [cellAt_oob _ _ (by simp; omega)] at hm
                cases hm
            have hge3_h : ∀ a, h.length ≤ a →
                ∀ k b, (k, HVal.ref b) ∈ cellAt (h2x ++ [snapCell]) a → h.length ≤ b := by
              intro a ha k b hm
              by_cases hlt : a < h1.length
              · rw [hE3b, cellAt_append _ _ _ hlt] at hm
                exact hAge a ha k b hm
              · have := hge3_h1 a (by omega) k b hm
                omega
            have hmat3 : matDict (h2x ++ [snapCell]) (dictUpdate wd uCell)
                = pdictUpdate (matDict h wd) (orEmptyP res) := by
              rw [hE3b, matDict_append _ _ _ hwd1b]
              exact hmat1
            have hlm3 : logsMatch (h2x ++ [snapCell])
                (hlogs ++ [{ step_index := si, node_id := node.id, tool := node.tool,
                             state_snapshot := h2x.length }])
                (plogs ++ [{ step_index := si, node_id := node.id, tool := node.tool,
                             state_snapshot := pdictUpdate (matDict h wd) (orEmptyP res) }]) := by
              refine forall2_app ?_ ?_
              · rw [hE3]
                exact logsMatch_ext _ hlm
              · exact List.Forall₂.cons ⟨rfl, rfl, rfl, by simp, hsnapmat⟩ List.Forall₂.nil
            have hsd3 : snapDisjoint (h2x ++ [snapCell]) (dictUpdate wd uCell)
                (hlogs ++ [{ step_index := si, node_id := node.id, tool := node.tool,
                             state_snapshot := h2x.length }]) := by
              intro sl hsl k b hbm x hreach hr2
              rcases List.mem_append.mp hsl with hold | hnew
              · have hsnapo : sl.state_snapshot < h.length := logsMatch_snapBelow hlm sl hold
                have hr2' : Reach h sl.state_snapshot x := by
                  rw [hE3] at hr2
                  exact (Reach_append hsnapo).mp hr2
                have hxlow : x < h.length := by
                  have := Reach_le hr2'
                  omega
                rcases dictUpdate_ref_src hbm with ⟨k2, hk2⟩ | ⟨k2, hk2⟩
                · have hb_lt : b < h.length := hwb k2 b hk2
                  have hr1 : Reach h b x := by
                    rw [hE3] at hreach
                    exact (Reach_append hb_lt).mp hreach
                  exact hsd sl hold k2 b hk2 x hr1 hr2'
                · have hb_ge : h.length ≤ b := (hArefs k2 b hk2).1
                  have hx_ge : h.length ≤ x := Reach_ge hge3_h hreach hb_ge
                  omega
              · have hsl_eq : sl = { step_index := si, node_id := node.id, tool := node.tool, state_snapshot := h2x.length } :=
                  List.mem_singleton.mp hnew
                subst hsl_eq
                have hb_lt : b < h1.length := hwd1b k b hbm
                have hx_le : x ≤ b := Reach_le hreach
                have hx_ge : h1.length ≤ x := Reach_ge hge3_h1 hr2 (by simp; omega)
                omega
            have hnn : nextNodeIdH g c (h2x ++ [snapCell]) (dictUpdate wd uCell)
                = nextNodeIdP g c (pdictUpdate (matDict h wd) (orEmptyP res)) := by
              rw [nextNodeIdH_corr, hmat3]
            rcases hnx : nextNodeIdH g c (h2x ++ [snapCell]) (dictUpdate wd uCell)
              with e | next
            · have hnxP : nextNodeIdP g c (pdictUpdate (matDict h wd) (orEmptyP res))
                  = Except.error e := by rw [← hnn]; exact hnx
              have hH : runLoopH reg g si (f + 1) (some c) h wd hlogs = Except.error e := by
                simp only [runLoopH, hnode, hgt, htr, hal, hdd, hnx]
              have hP : runLoopP reg g si (f + 1) (some c) (matDict h wd) plogs
                  = Except.error e := by
                simp only [runLoopP, hnode, hgt, htr, hnxP]
              constructor
              · intro e1 h1
                rw [hH] at h1
                injection h1 with h2
                subst h2
                exact hP
              · intro st c2 h2 wd2 hlogs2 h1
                rw [hH] at h1
                cases h1
            · have hnxP : nextNodeIdP g c (pdictUpdate (matDict h wd) (orEmptyP res))
                  = Except.ok next := by rw [← hnn]; exact hnx
              have hH : runLoopH reg g si (f + 1) (some c) h wd hlogs
                  = runLoopH reg g (si + 1) f next (h2x ++ [snapCell])
                      (dictUpdate wd uCell)
                      (hlogs ++ [{ step_index := si, node_id := node.id, tool := node.tool,
                                   state_snapshot := h2x.length }]) := by
                simp only [runLoopH, hnode, hgt, htr, hal, hdd, hnx]
              have hP : runLoopP reg g si (f + 1) (some c) (matDict h wd) plogs
                  = runLoopP reg g (si + 1) f next
                      (pdictUpdate (matDict h wd) (orEmptyP res))
                      (plogs ++ [{ step_index := si, node_id := node.id, tool := node.tool,
                                   state_snapshot := pdictUpdate (matDict h wd) (orEmptyP res) }]) := by
                simp only [runLoopP, hnode, hgt, htr, hnxP]
              obtain ⟨ihErr, ihOk⟩ := ih (si + 1) next (h2x ++ [snapCell])
                (dictUpdate wd uCell)
                (hlogs ++ [{ step_index := si, node_id := node.id, tool := node.tool,
                             state_snapshot := h2x.length }])
                (plogs ++ [{ step_index := si, node_id := node.id, tool := node.tool,
                             state_snapshot := pdictUpdate (matDict h wd) (orEmptyP res) }])
                ⟨hdch3, hwd1b3, hlm3, hsd3⟩
              rw [hmat3] at ihErr ihOk
              constructor
              · intro e1 h1
                rw [hH] at h1
                rw [hP]
                exact ihErr e1 h1
              · intro st c2 h4 wd4 hlogs4 h1
                rw [hH] at h1
                obtain ⟨plogs4, hpe, ⟨ext4, hext4⟩, hinv4⟩ := ihOk st c2 h4 wd4 hlogs4 h1
                refine ⟨plogs4, ?_, ?_, hinv4⟩
                · rw [hP]
                  exact hpe
                · refine ⟨ext1 ++ (ext2 ++ [snapCell]) ++ ext4, ?_⟩
                  rw [hext4, hE3]
                  simp

end HeapM

/-! ### Claim theorems -/


/-! ### Claim theorems -/

/-- C1 counterexample: on an engine whose graph "g" is known but whose
single node names an unregistered tool, run_graph propagates the
tool-lookup failure to the caller as a raised error (and records nothing),
refuting the claim that every failure arising inside the step loop is
captured by returning a Run with status failed and is never propagated. -/
theorem C1_counterexample :
    (cexEngine.run_graph "g" emptyState 100).1 = Except.error (Err.toolNotFound "t1")
    ∧ (cexEngine.run_graph "g" emptyState 100).2.runs "0" = Option.none := by
  exact ⟨rfl, rfl⟩

/-- The step loop's only two non-raising failure exits: a returned
"failed" status comes either from reaching a node id absent from the
graph's node map (retained in the returned current node) or from
exhausting the whole step budget, appending one log entry per consumed
fuel unit. -/
theorem runLoop_failed_src (reg : ToolRegistry) (g : Graph) :
    ∀ (fuel si : Nat) (cur : Option String) (state : StateMap) (logs : List StepLog)
      (status : String) (cur2 : Option String) (st2 : StateMap) (logs2 : List StepLog),
      runLoop reg g si fuel cur state logs = Except.ok (status, cur2, st2, logs2) →
      status = "failed" →
      (∃ d, cur2 = some d ∧ g.nodes d = Option.none)
      ∨ logs2.length = logs.length + fuel := by
  intro fuel
  induction fuel with
  | zero =>
    intro si cur state logs status cur2 st2 logs2 hrun hst
    simp only [runLoop, Except.ok.injEq, Prod.mk.injEq] at hrun
    obtain ⟨h1, h2, h3, h4⟩ := hrun
    right
    rw [← h4]
    omega
  | succ f ih =>
    intro si cur state logs status cur2 st2 logs2 hrun hst
    cases cur with
    | none =>
      simp only [runLoop, Except.ok.injEq, Prod.mk.injEq] at hrun
      obtain ⟨h1, h2, h3, h4⟩ := hrun
      rw [← h1] at hst
      exact absurd hst (by decide)
    | some c =>
      rcases hnode : g.nodes c with _ | node
      · simp only [runLoop, hnode, Except.ok.injEq, Prod.mk.injEq] at hrun
        obtain ⟨h1, h2, h3, h4⟩ := hrun
        exact Or.inl ⟨c, h2.symm, hnode⟩
      · rcases hget : reg.get node.tool with e1 | tool
        · simp only [runLoop, hnode, hget] at hrun
          cases hrun
        · rcases htr : tool state node.config with e1 | res
          · simp only [runLoop, hnode, hget, htr] at hrun
            cases hrun
          · rcases hnx : _next_node_id g c (dictUpdate state (orEmpty res)) with e1 | next
            · have herr2 : runLoop reg g si (f + 1) (some c) state logs = Except.error e1 := by
                simp only [runLoop, hnode, hget, htr, hnx]
              rw [herr2] at hrun
              cases hrun
            · have hrun2 : runLoop reg g (si + 1) f next (dictUpdate state (orEmpty res))
                  (logs ++ [{ step_index := si, node_id := node.id, tool := node.tool, state_snapshot := dictUpdate state (orEmpty res) }])
                  = Except.ok (status, cur2, st2, logs2) := by
                rw [← hrun]
                simp only [runLoop, hnode, hget, htr, hnx]
              rcases ih (si + 1) next (dictUpdate state (orEmpty res)) _ status cur2 st2
                logs2 hrun2 hst with hL | hR
              · exact Or.inl hL
              · right
                simp only [List.length_append, List.length_cons, List.length_nil] at hR
                omega

/-- C1 amended: a call-level NotFound is raised exactly when graph_id is
unknown (the engine untouched); whenever run_graph raises, no Run is
recorded; each of the three step-loop failure modes — a tool name that
does not resolve, an exception raised by the tool invocation, and a
failing/incomparable or unsupported condition comparison — makes the loop
raise at whatever position it occurs; a loop error is returned to the
caller verbatim; and the only failures captured as a returned Run with
status "failed" are an unknown current node id (retained in the Run) and
step-budget exhaustion (a log entry per budgeted step). -/
theorem C1_error_propagation (e : GraphEngine) (gid : String) (st : StateMap) (n : Nat) :
    (e.graphs gid = Option.none →
      e.run_graph gid st n = (Except.error (Err.graphNotFound gid), e))
    ∧ (∀ err, (e.run_graph gid st n).1 = Except.error err →
        (e.run_graph gid st n).2.runs = e.runs)
    ∧ (∀ g c node si fuel state logs, g.nodes c = some node →
        (e.tool_registry._tools node.tool = Option.none →
          runLoop e.tool_registry g si (fuel + 1) (some c) state logs
            = Except.error (Err.toolNotFound node.tool))
        ∧ (∀ tool err, e.tool_registry.get node.tool = Except.ok tool →
            tool state node.config = Except.error err →
            runLoop e.tool_registry g si (fuel + 1) (some c) state logs
              = Except.error err)
        ∧ (∀ tool res err, e.tool_registry.get node.tool = Except.ok tool →
            tool state node.config = Except.ok res →
            _next_node_id g c (dictUpdate state (orEmpty res)) = Except.error err →
            runLoop e.tool_registry g si (fuel + 1) (some c) state logs
              = Except.error err))
    ∧ (∀ g err, e.graphs gid = some g →
        runLoop e.tool_registry g 0 n (some g.start_node) st [] = Except.error err →
        (e.run_graph gid st n).1 = Except.error err)
    ∧ (∀ g r, e.graphs gid = some g → (e.run_graph gid st n).1 = Except.ok r →
        r.status = "failed" →
        (∃ d, r.current_node = some d ∧ g.nodes d = Option.none)
        ∨ r.log.length = n) := by
  refine ⟨fun h => ?_, fun err herr => ?_,
    fun g c node si fuel state logs hnode => ⟨fun htool => ?_, fun tool err hget htr => ?_,
      fun tool res err hget htr hnx => ?_⟩,
    fun g err hg hloop => ?_, fun g r hg hr hst => ?_⟩
  · simp [GraphEngine.run_graph, GraphEngine.get_graph, h]
  · rcases hg : e.graphs gid with _ | g
    · simp [GraphEngine.run_graph, GraphEngine.get_graph, hg]
    · rcases hr : runLoop e.tool_registry g 0 n (some g.start_node) st [] with e1 | res
      · simp [GraphEngine.run_graph, GraphEngine.get_graph, hg, hr]
      · simp [GraphEngine.run_graph, GraphEngine.get_graph, hg, hr] at herr
  · simp only [runLoop, hnode, ToolRegistry.get, htool]
  · simp only [runLoop, hnode, hget, htr]
  · simp only [runLoop, hnode, hget, htr, hnx]
  · simp only [GraphEngine.run_graph, GraphEngine.get_graph, hg, hloop]
  · rcases hrl : runLoop e.tool_registry g 0 n (some g.start_node) st [] with e1 | res
    · rw [GraphEngine.run_graph] at hr
      simp only [GraphEngine.get_graph, hg, hrl] at hr
      cases hr
    · obtain ⟨status, cur2, st2, logs2⟩ := res
      rw [GraphEngine.run_graph] at hr
      simp only [GraphEngine.get_graph, hg, hrl, Except.ok.injEq] at hr
      rcases runLoop_failed_src e.tool_registry g n 0 (some g.start_node) st []
        status cur2 st2 logs2 hrl (by rw [← hr] at hst; exact hst) with hL | hR
      · rw [← hr]
        exact Or.inl hL
      · rw [← hr]
        right
        show logs2.length = n
        simp only [List.length_nil] at hR
        omega

/-- C1 amended witness: each clause on a concrete engine — unresolvable
tool name, raising tool, incomparable comparison (state lacks the
condition key, so None > 80 raises), the unknown-graph NotFound with no
Run recorded, and the failure-source characterisation on a dangling-node
run. -/
theorem C1_error_propagation_witness :
    (cexEngine.run_graph "g" emptyState 3).1 = Except.error (Err.toolNotFound "t1")
    ∧ (cexEngine.run_graph "g" emptyState 3).2.runs = cexEngine.runs
    ∧ cexEngine.run_graph "nope" emptyState 3 =
        (Except.error (Err.graphNotFound "nope"), cexEngine)
    ∧ (raiseEngine.run_graph "g" emptyState 3).1 = Except.error (Err.toolErr "boom")
    ∧ (condEngine.run_graph "gx" emptyState 3).1 = Except.error Err.typeErr
    ∧ ((∃ d, wRunD.current_node = some d ∧ wGraphA.nodes d = Option.none)
        ∨ wRunD.log.length = 2) := by
  obtain ⟨hA, hB, hC, hD, hE⟩ := C1_error_propagation cexEngine "g" emptyState 3
  have ht1 : runLoop cexEngine.tool_registry wGraphA 0 3 (some "a") emptyState []
      = Except.error (Err.toolNotFound "t1") :=
    (hC wGraphA "a" { id := "a", tool := "t1", config := [] } 0 2 emptyState [] rfl).1 rfl
  have hrun1 : (cexEngine.run_graph "g" emptyState 3).1
      = Except.error (Err.toolNotFound "t1") := hD wGraphA _ rfl ht1
  obtain ⟨hA2, hB2, hC2, hD2, hE2⟩ := C1_error_propagation raiseEngine "g" emptyState 3
  have ht2 : runLoop raiseEngine.tool_registry wGraphA 0 3 (some "a") emptyState []
      = Except.error (Err.toolErr "boom") :=
    (hC2 wGraphA "a" { id := "a", tool := "t1", config := [] } 0 2 emptyState [] rfl).2.1
      raiseTool (Err.toolErr "boom") rfl rfl
  obtain ⟨hA3, hB3, hC3, hD3, hE3⟩ := C1_error_propagation condEngine "gx" emptyState 3
  have ht3 : runLoop condEngine.tool_registry wGraphCond 0 3 (some "a") emptyState []
      = Except.error Err.typeErr :=
    (hC3 wGraphCond "a" { id := "a", tool := "t1", config := [] } 0 2 emptyState [] rfl).2.2
      noopTool Option.none Err.typeErr rfl rfl rfl
  refine ⟨hrun1, hB _ hrun1, (C1_error_propagation cexEngine "nope" emptyState 3).1 rfl,
    hD2 wGraphA _ rfl ht2, hD3 wGraphCond _ rfl ht3, ?_⟩
  exact (C1_error_propagation okEngine "g" emptyState 2).2.2.2.2 wGraphA wRunD rfl rfl rfl

/-- C8: run_graph on an unknown graph id raises NotFound and records no
Run (the engine is returned unchanged); whenever run_graph returns a Run,
that Run is stored and retrievable via get_run under the same id; and
get_run on an id that was never stored fails with NotFound. -/
theorem C8_run_storage (e : GraphEngine) (gid rid : String) (st : StateMap) (n : Nat) :
    (e.graphs gid = Option.none →
      e.run_graph gid st n = (Except.error (Err.graphNotFound gid), e))
    ∧ (∀ r, (e.run_graph gid st n).1 = Except.ok r →
        (e.run_graph gid st n).2.runs r.id = some r
        ∧ (e.run_graph gid st n).2.get_run r.id = Except.ok r)
    ∧ (e.runs rid = Option.none → e.get_run rid = Except.error (Err.runNotFound rid)) := by
  refine ⟨fun h => ?_, fun r hr => ?_, fun h => ?_⟩
  · simp [GraphEngine.run_graph, GraphEngine.get_graph, h]
  · rcases hg : e.graphs gid with _ | g
    · simp [GraphEngine.run_graph, GraphEngine.get_graph, hg] at hr
    · rcases hl : runLoop e.tool_registry g 0 n (some g.start_node) st [] with e1 | res
      · simp [GraphEngine.run_graph, GraphEngine.get_graph, hg, hl] at hr
      · obtain ⟨status, current, finalState, logs⟩ := res
        simp [GraphEngine.run_graph, GraphEngine.get_graph, hg, hl] at hr ⊢
        subst hr
        simp [GraphEngine.get_run]
  · simp [GraphEngine.get_run, h]

/-- C8 witness: a returned Run is retrievable from the post-call engine,
and get_run on a never-stored id fails with NotFound. -/
theorem C8_run_storage_witness :
    (okEngine.run_graph "g" emptyState 1).2.get_run "0" = Except.ok wRun8
    ∧ okEngine.get_run "z" = Except.error (Err.runNotFound "z") := by
  obtain ⟨h1, h2, h3⟩ := C8_run_storage okEngine "g" "z" emptyState 1
  have hr : (okEngine.run_graph "g" emptyState 1).1 = Except.ok wRun8 := rfl
  exact ⟨(h2 wRun8 hr).2, h3 rfl⟩

/-- C2: the transition resolver returns no next node when no edge is keyed
by the current node id; returns the edge's to-target when the edge is
unconditional (condition_key or condition_op absent); and when the edge is
conditional it reads state[condition_key] (a missing key yielding the none
sentinel), evaluates the comparison with gt as >, ge as >=, lt as <, le as
<=, eq as ==, ne as !=, returning true_target when it holds and
false_target otherwise; an operator outside this six-element set fails
fast with an error. -/
theorem C2_transition_resolver (g : Graph) (cur : String) (s : StateMap) :
    (g.edges cur = Option.none → _next_node_id g cur s = Except.ok Option.none)
    ∧ (∀ e, g.edges cur = some e →
        (e.condition_key = Option.none ∨ e.condition_op = Option.none) →
        _next_node_id g cur s = Except.ok e.to_node)
    ∧ (∀ e ck cop, g.edges cur = some e → e.condition_key = some ck →
        e.condition_op = some cop →
        _next_node_id g cur s =
          match _compare (stateGet s ck) cop e.condition_value with
          | Except.error err => Except.error err
          | Except.ok r => Except.ok (if r then e.true_target else e.false_target))
    ∧ (∀ k, s k = Option.none → stateGet s k = Val.none)
    ∧ (∀ a b : Int,
        _compare (Val.int a) "gt" (Val.int b) = Except.ok (decide (a > b))
        ∧ _compare (Val.int a) "ge" (Val.int b) = Except.ok (decide (a ≥ b))
        ∧ _compare (Val.int a) "lt" (Val.int b) = Except.ok (decide (a < b))
        ∧ _compare (Val.int a) "le" (Val.int b) = Except.ok (decide (a ≤ b))
        ∧ _compare (Val.int a) "eq" (Val.int b) = Except.ok (decide (a = b))
        ∧ _compare (Val.int a) "ne" (Val.int b) = Except.ok (decide (a ≠ b)))
    ∧ (∀ op, op ∉ (["gt", "ge", "lt", "le", "eq", "ne"] : List String) →
        ∀ l r, _compare l op r = Except.error (Err.unsupportedOp op)) := by
  refine ⟨fun h => ?_, fun e he hc => ?_, fun e ck cop he hk hop => ?_,
    fun k hk => ?_, fun a b => ?_, fun op hop l r => ?_⟩
  · simp [_next_node_id, h]
  · rcases hc with hc | hc
    · simp [_next_node_id, he, hc]
    · rw [_next_node_id, he]
      rcases hck : e.condition_key with _ | ck <;> simp [hc]
  · simp [_next_node_id, he, hk, hop]
  · simp [stateGet, hk]
  · refine ⟨?_, ?_, ?_, ?_, ?_, ?_⟩ <;>
      simp [_compare, pyGt, pyGe, pyLt, pyLe, pyEq] <;>
      by_cases h : a = b <;> simp [h]
  · simp only [List.mem_cons, List.not_mem_nil, or_false, not_or] at hop
    obtain ⟨h1, h2, h3, h4, h5, h6⟩ := hop
    simp [_compare, h1, h2, h3, h4, h5, h6]

/-- C2 witness: the resolver and comparison table evaluated at concrete
inputs through the theorem. -/
theorem C2_transition_resolver_witness :
    _next_node_id wGraphA "a" emptyState = Except.ok (some "t")
    ∧ _compare (Val.int 3) "gt" (Val.int 5) = Except.ok false
    ∧ _compare Val.none "foo" (Val.int 1) = Except.error (Err.unsupportedOp "foo") := by
  obtain ⟨h1, h2, h3, h4, h5, h6⟩ := C2_transition_resolver wGraphA "a" emptyState
  refine ⟨?_, ?_, ?_⟩
  · exact (h2 wEdgeAT rfl (Or.inl rfl)).trans rfl
  · exact ((h5 3 5).1).trans rfl
  · exact h6 "foo" (by decide) Val.none (Val.int 1)

/-- C9: the tool registry is last-write-wins — after register(n, f) then
register(n, g), get(n) returns g — and get on a name never registered
fails with a NotFound error identifying that name. -/
theorem C9_registry_last_write_wins (r : ToolRegistry) (n m : String) (f g : Tool) :
    ((r.register n f).register n g).get n = Except.ok g
    ∧ (r._tools m = Option.none → r.get m = Except.error (Err.toolNotFound m)) := by
  constructor
  · simp [ToolRegistry.register, ToolRegistry.get]
  · intro h
    simp [ToolRegistry.get, h]

/-- Chain execution lemma: starting the loop at position i of a k-node
chain with some remaining fuel, the loop completes (status "completed",
terminal current node) when strictly more than the k - i remaining chain
steps fit in the fuel, and otherwise stops with status "failed" after
consuming all the fuel; either way it appends one StepLog per executed
step, with consecutive step_index values starting at the given one. -/
theorem runLoop_chain (reg : ToolRegistry) (g : Graph) (path : Nat → String) (k : Nat)
    (hc : ChainHyp reg g path k) :
    ∀ fuel i si st logs, i ≤ k →
      ∃ st' L,
        runLoop reg g si fuel (curAt path k i) st logs =
          Except.ok (if k - i < fuel then "completed" else "failed",
            curAt path k (i + min fuel (k - i)), st', logs ++ L)
        ∧ L.length = min fuel (k - i)
        ∧ L.map (fun sl => sl.step_index) = List.range' si (min fuel (k - i)) := by
  intro fuel
  induction fuel with
  | zero =>
    intro i si st logs hik
    refine ⟨st, [], ?_, ?_, ?_⟩
    · simp [runLoop]
    · simp
    · simp
  | succ f ih =>
    intro i si st logs hik
    by_cases hik' : i < k
    · obtain ⟨node, tool, hnode, hget, htool, hnext⟩ := hc i hik'
      obtain ⟨u, hu⟩ := htool st
      have hcur : curAt path k i = some (path i) := by simp [curAt, hik']
      obtain ⟨st', L', hrun, hlen, hmap⟩ :=
        ih (i + 1) (si + 1) (dictUpdate st (orEmpty u))
          (logs ++ [{ step_index := si, node_id := node.id, tool := node.tool, state_snapshot := dictUpdate st (orEmpty u) }])
          (by omega)
      refine ⟨st', { step_index := si, node_id := node.id, tool := node.tool, state_snapshot := dictUpdate st (orEmpty u) } :: L', ?_, ?_, ?_⟩
      · have hstep : runLoop reg g si (f + 1) (curAt path k i) st logs =
            runLoop reg g (si + 1) f (curAt path k (i + 1)) (dictUpdate st (orEmpty u))
              (logs ++ [{ step_index := si, node_id := node.id, tool := node.tool, state_snapshot := dictUpdate st (orEmpty u) }]) := by
          rw [hcur]
          simp only [runLoop, hnode, hget, hu, hnext]
        have hif : (if k - i < f + 1 then "completed" else "failed") = (if k - (i + 1) < f then "completed" else "failed") := if_congr (by omega) rfl rfl
        have hidx : i + min (f + 1) (k - i) = i + 1 + min f (k - (i + 1)) := by omega
        have happ : logs ++ ({ step_index := si, node_id := node.id, tool := node.tool, state_snapshot := dictUpdate st (orEmpty u) } :: L') = (logs ++ [{ step_index := si, node_id := node.id, tool := node.tool, state_snapshot := dictUpdate st (orEmpty u) }]) ++ L' := by simp
        rw [hstep, hrun, hif, hidx, happ]
      · simp only [List.length_cons, hlen]
        omega
      · have h4 : min (f + 1) (k - i) = min f (k - (i + 1)) + 1 := by omega
        simp only [List.map_cons, hmap, h4, List.range'_succ]
    · have hcur : curAt path k i = Option.none := by simp [curAt]; omega
      refine ⟨st, [], ?_, ?_, ?_⟩
      · rw [hcur]
        have h5 : k - i < f + 1 := by omega
        have h6 : min (f + 1) (k - i) = 0 := by omega
        simp only [runLoop]
        simp [h5, h6, hcur]
      · simp
        omega
      · simp
        omega

/-- Self-loop execution lemma: when the start node's transition always
routes back to itself and its tool always succeeds, the loop consumes all
its fuel, appends one StepLog per iteration, and reports "failed". -/
theorem runLoop_selfLoop (reg : ToolRegistry) (g : Graph) (node : Node) (tool : Tool)
    (hnode : g.nodes g.start_node = some node)
    (hget : reg.get node.tool = Except.ok tool)
    (htool : ∀ s, ∃ u, tool s node.config = Except.ok u)
    (hnext : ∀ s, _next_node_id g g.start_node s = Except.ok (some g.start_node)) :
    ∀ fuel si st logs, ∃ st' L,
      runLoop reg g si fuel (some g.start_node) st logs =
        Except.ok ("failed", some g.start_node, st', logs ++ L)
      ∧ L.length = fuel := by
  intro fuel
  induction fuel with
  | zero =>
    intro si st logs
    exact ⟨st, [], by simp [runLoop], rfl⟩
  | succ f ih =>
    intro si st logs
    obtain ⟨u, hu⟩ := htool st
    obtain ⟨st', L', hrun, hlen⟩ :=
      ih (si + 1) (dictUpdate st (orEmpty u))
        (logs ++ [{ step_index := si, node_id := node.id, tool := node.tool, state_snapshot := dictUpdate st (orEmpty u) }])
    refine ⟨st', { step_index := si, node_id := node.id, tool := node.tool, state_snapshot := dictUpdate st (orEmpty u) } :: L', ?_, ?_⟩
    · have hstep : runLoop reg g si (f + 1) (some g.start_node) st logs =
          runLoop reg g (si + 1) f (some g.start_node) (dictUpdate st (orEmpty u))
            (logs ++ [{ step_index := si, node_id := node.id, tool := node.tool, state_snapshot := dictUpdate st (orEmpty u) }]) := by
        simp only [runLoop, hnode, hget, hu, hnext]
      rw [hstep, hrun]
      simp
    · simp only [List.length_cons, hlen]

/-- ChainHyp holds for the two-node chain fixture. -/
theorem chainHyp_fixture : ChainHyp chainEngine.tool_registry wGraphChain wPath 2 := by
  intro j hj
  interval_cases j
  · exact ⟨{ id := "a", tool := "t1", config := [] }, noopTool, rfl, rfl,
      fun s => ⟨Option.none, rfl⟩, fun s => rfl⟩
  · exact ⟨{ id := "b", tool := "t1", config := [] }, noopTool, rfl, rfl,
      fun s => ⟨Option.none, rfl⟩, fun s => rfl⟩

/-- C3: on a self-loop whose guard outcome never changes (every transition
out of the start node routes back to it) and whose node's tool resolves
and succeeds, run_graph with max_steps = N returns a Run with status
"failed" and a log of length exactly N. -/
theorem C3_self_loop (e : GraphEngine) (gid : String) (g : Graph) (node : Node) (tool : Tool)
    (st : StateMap) (N : Nat)
    (hg : e.graphs gid = some g)
    (hnode : g.nodes g.start_node = some node)
    (hget : e.tool_registry.get node.tool = Except.ok tool)
    (htool : ∀ s, ∃ u, tool s node.config = Except.ok u)
    (hnext : ∀ s, _next_node_id g g.start_node s = Except.ok (some g.start_node)) :
    ∃ r, (e.run_graph gid st N).1 = Except.ok r
      ∧ r.status = "failed"
      ∧ r.log.length = N := by
  obtain ⟨st', L, hrun, hlen⟩ :=
    runLoop_selfLoop e.tool_registry g node tool hnode hget htool hnext N 0 st []
  refine ⟨{ id := toString e.counter, graph_id := gid, status := "failed",
            current_node := some g.start_node, state := st', log := L }, ?_, rfl, ?_⟩
  · simp only [GraphEngine.run_graph, GraphEngine.get_graph, hg, hrun, List.nil_append]
  · exact hlen

/-- C3 witness: the self-loop fixture with budget 3 ends failed with
exactly three log entries. -/
theorem C3_self_loop_witness :
    ∃ r, (loopEngine.run_graph "gl" emptyState 3).1 = Except.ok r
      ∧ r.status = "failed"
      ∧ r.log.length = 3 :=
  C3_self_loop loopEngine "gl" wGraphLoop { id := "a", tool := "t1", config := [] }
    noopTool emptyState 3 rfl rfl rfl (fun _ => ⟨Option.none, rfl⟩) (fun _ => rfl)

/-- C4: with max_steps = 0 run_graph always returns a failed Run with an
empty log, whatever the (existing) graph; and a chain that reaches its
terminal exactly at the max_steps-th step still returns status "failed"
even though current_node in the returned Run is none. -/
theorem C4_budget_boundary (e : GraphEngine) (gid : String) (g : Graph) (st : StateMap)
    (path : Nat → String) (k : Nat)
    (hg : e.graphs gid = some g) :
    (∃ r, (e.run_graph gid st 0).1 = Except.ok r ∧ r.status = "failed" ∧ r.log = [])
    ∧ (path 0 = g.start_node → 1 ≤ k → ChainHyp e.tool_registry g path k →
        ∃ r, (e.run_graph gid st k).1 = Except.ok r
          ∧ r.status = "failed"
          ∧ r.current_node = Option.none
          ∧ r.log.length = k) := by
  constructor
  · refine ⟨{ id := toString e.counter, graph_id := gid, status := "failed",
              current_node := some g.start_node, state := st, log := [] }, ?_, rfl, rfl⟩
    simp [GraphEngine.run_graph, GraphEngine.get_graph, hg, runLoop]
  · intro hstart hk hc
    obtain ⟨st', L, hrun, hlen, hmap⟩ := runLoop_chain e.tool_registry g path k hc k 0 0 st [] (by omega)
    have hcur0 : curAt path k 0 = some g.start_node := by
      simp [curAt]
      constructor
      · omega
      · exact hstart
    have hif : (if k - 0 < k then "completed" else "failed") = "failed" := if_neg (by omega)
    have hmin : min k (k - 0) = k := by omega
    have hterm : curAt path k (0 + min k (k - 0)) = Option.none := by
      rw [hmin]
      simp [curAt]
    rw [hcur0, hif, hterm] at hrun
    rw [hmin] at hlen
    refine ⟨{ id := toString e.counter, graph_id := gid, status := "failed",
              current_node := Option.none, state := st', log := L }, ?_, rfl, rfl, ?_⟩
    · simp only [GraphEngine.run_graph, GraphEngine.get_graph, hg, hrun, List.nil_append]
    · exact hlen

/-- C4 witness: the chain fixture run with budget 0 and with budget equal
to the chain length. -/
theorem C4_budget_boundary_witness :
    (∃ r, (chainEngine.run_graph "gc" emptyState 0).1 = Except.ok r
      ∧ r.status = "failed" ∧ r.log = [])
    ∧ (∃ r, (chainEngine.run_graph "gc" emptyState 2).1 = Except.ok r
      ∧ r.status = "failed" ∧ r.current_node = Option.none ∧ r.log.length = 2) := by
  obtain ⟨h1, h2⟩ := C4_budget_boundary chainEngine "gc" wGraphChain emptyState wPath 2 rfl
  exact ⟨h1, h2 rfl (by omega) chainHyp_fixture⟩

/-- C5: a pure linear chain of k nodes (1 ≤ k < max_steps) whose nodes all
exist, whose tools all resolve and succeed, executes to a completed Run
whose log has exactly k entries with step_index 0 … k-1 in order. -/
theorem C5_linear_chain (e : GraphEngine) (gid : String) (g : Graph) (st : StateMap)
    (path : Nat → String) (k max_steps : Nat)
    (hg : e.graphs gid = some g) (hstart : path 0 = g.start_node)
    (hk : 1 ≤ k) (hlt : k < max_steps)
    (hc : ChainHyp e.tool_registry g path k) :
    ∃ r, (e.run_graph gid st max_steps).1 = Except.ok r
      ∧ r.status = "completed"
      ∧ r.log.length = k
      ∧ r.log.map (fun sl => sl.step_index) = List.range k := by
  obtain ⟨st', L, hrun, hlen, hmap⟩ :=
    runLoop_chain e.tool_registry g path k hc max_steps 0 0 st [] (by omega)
  have hcur0 : curAt path k 0 = some g.start_node := by
    simp [curAt]
    constructor
    · omega
    · exact hstart
  have hif : (if k - 0 < max_steps then "completed" else "failed") = "completed" := if_pos (by omega)
  have hmin : min max_steps (k - 0) = k := by omega
  have hterm : curAt path k (0 + min max_steps (k - 0)) = Option.none := by
    rw [hmin]
    simp [curAt]
  rw [hcur0, hif, hterm] at hrun
  rw [hmin] at hlen hmap
  refine ⟨{ id := toString e.counter, graph_id := gid, status := "completed",
            current_node := Option.none, state := st', log := L }, ?_, rfl, hlen, ?_⟩
  · simp only [GraphEngine.run_graph, GraphEngine.get_graph, hg, hrun, List.nil_append]
  · rw [List.range_eq_range']
    exact hmap

/-- C5 witness: the two-node chain fixture with budget 5 completes with
log step indexes [0, 1]. -/
theorem C5_linear_chain_witness :
    ∃ r, (chainEngine.run_graph "gc" emptyState 5).1 = Except.ok r
      ∧ r.status = "completed"
      ∧ r.log.length = 2
      ∧ r.log.map (fun sl => sl.step_index) = List.range 2 :=
  C5_linear_chain chainEngine "gc" wGraphChain emptyState wPath 2 5 rfl rfl
    (by omega) (by omega) chainHyp_fixture

/-- C6: when the executed start node's outgoing transition targets an id
that does not exist in the graph's node map (the start node's tool
resolving and succeeding), run_graph returns a failed Run whose
current_node is that nonexistent id, retained for diagnostics. -/
theorem C6_dangling_target (e : GraphEngine) (gid : String) (g : Graph) (node : Node)
    (tool : Tool) (d : String) (st : StateMap) (n : Nat)
    (hg : e.graphs gid = some g)
    (hnode : g.nodes g.start_node = some node)
    (hget : e.tool_registry.get node.tool = Except.ok tool)
    (htool : ∀ s, ∃ u, tool s node.config = Except.ok u)
    (hnext : ∀ s, _next_node_id g g.start_node s = Except.ok (some d))
    (hd : g.nodes d = Option.none)
    (hn : 1 ≤ n) :
    ∃ r, (e.run_graph gid st n).1 = Except.ok r
      ∧ r.status = "failed"
      ∧ r.current_node = some d := by
  obtain ⟨m, rfl⟩ : ∃ m, n = m + 1 := ⟨n - 1, by omega⟩
  obtain ⟨u, hu⟩ := htool st
  have hstep : runLoop e.tool_registry g 0 (m + 1) (some g.start_node) st [] =
      runLoop e.tool_registry g 1 m (some d) (dictUpdate st (orEmpty u))
        ([] ++ [{ step_index := 0, node_id := node.id, tool := node.tool, state_snapshot := dictUpdate st (orEmpty u) }]) := by
    simp only [runLoop, hnode, hget, hu, hnext]
  have h2 : runLoop e.tool_registry g 1 m (some d) (dictUpdate st (orEmpty u))
      ([] ++ [{ step_index := 0, node_id := node.id, tool := node.tool, state_snapshot := dictUpdate st (orEmpty u) }]) =
      Except.ok ("failed", some d, dictUpdate st (orEmpty u),
        [] ++ [{ step_index := 0, node_id := node.id, tool := node.tool, state_snapshot := dictUpdate st (orEmpty u) }]) := by
    cases m with
    | zero => simp [runLoop]
    | succ m2 => simp [runLoop, hd]
  refine ⟨{ id := toString e.counter, graph_id := gid, status := "failed",
            current_node := some d, state := dictUpdate st (orEmpty u),
            log := [] ++ [{ step_index := 0, node_id := node.id, tool := node.tool, state_snapshot := dictUpdate st (orEmpty u) }] }, ?_, rfl, rfl⟩
  rw [hstep.symm] at h2
  simp only [GraphEngine.run_graph, GraphEngine.get_graph, hg, h2]

/-- C6 witness: the okEngine fixture, whose start node's edge targets the
nonexistent node "t". -/
theorem C6_dangling_target_witness :
    ∃ r, (okEngine.run_graph "g" emptyState 5).1 = Except.ok r
      ∧ r.status = "failed"
      ∧ r.current_node = some "t" :=
  C6_dangling_target okEngine "g" wGraphA { id := "a", tool := "t1", config := [] }
    noopTool "t" emptyState 5 rfl rfl rfl (fun _ => ⟨Option.none, rfl⟩) (fun _ => rfl)
    rfl (by omega)

/-- Initial heap-loop invariant for a run started on a downward-closed
caller heap. -/
theorem initialLoopInv (h0 : HeapM.Heap) (initAddr : Nat) (hdc : HeapM.heapDC h0) :
    HeapM.LoopInv h0 (HeapM.cellAt h0 initAddr) [] [] := by
  refine ⟨hdc, ?_, List.Forall₂.nil, ?_⟩
  · by_cases hlt : initAddr < h0.length
    · exact HeapM.dictRefsBelow_mono (hdc initAddr) (by omega)
    · rw [HeapM.cellAt_oob _ _ (by omega)]
      intro k b hm
      cases hm
  · intro sl hsl
    cases hsl

/-- C7: in the heap model of run_graph, every recorded state_snapshot is
an independent deep copy of the working state taken immediately after its
step's merge: the run's heap log matches the value-level replay's log,
whose recorded snapshot at step i is by construction the value of the
working state immediately after step i's merge (so no later step's merge
changed it); and materialising a snapshot is unaffected by changing any
heap cell reachable from the returned Run's state, so mutating the
returned state after the call cannot alter any recorded snapshot. -/
theorem C7_snapshot_deep_copy (reg : String → Option HeapM.ToolH) (g : HeapM.GraphH)
    (h0 : HeapM.Heap) (initAddr N : Nat) (hdc : HeapM.heapDC h0) :
    ∀ run hF, HeapM.runGraphH reg g h0 initAddr N = Except.ok (run, hF) →
      ∃ pst plogs,
        HeapM.runLoopP reg g 0 N (some g.start_node)
            (HeapM.matDict h0 (HeapM.cellAt h0 initAddr)) []
          = Except.ok (run.status, run.current_node, pst, plogs)
        ∧ HeapM.matDict hF run.state = pst
        ∧ List.Forall₂ (fun (slH : HeapM.StepLogH) (slP : HeapM.StepLogP) =>
            slH.step_index = slP.step_index ∧ slH.node_id = slP.node_id
            ∧ slH.tool = slP.tool
            ∧ HeapM.matCell hF slH.state_snapshot = HeapM.PVal.dict slP.state_snapshot)
            run.log plogs
        ∧ (∀ h', (∀ a, HeapM.cellAt h' a ≠ HeapM.cellAt hF a →
              ∃ k b, (k, HeapM.HVal.ref b) ∈ run.state ∧ HeapM.Reach hF b a) →
            ∀ sl ∈ run.log,
              HeapM.matCell h' sl.state_snapshot = HeapM.matCell hF sl.state_snapshot) := by
  intro run hF hrun
  rcases hrl : HeapM.runLoopH reg g 0 N (some g.start_node) h0 (HeapM.cellAt h0 initAddr) []
    with e | res
  · rw [HeapM.runGraphH, hrl] at hrun
    cases hrun
  · obtain ⟨st, cur, h2, wd2, hlogs2⟩ := res
    rw [HeapM.runGraphH, hrl] at hrun
    injection hrun with hrun2
    injection hrun2 with hrunA hrunB
    subst hrunA
    subst hrunB
    obtain ⟨ihErr, ihOk⟩ := HeapM.runLoopH_sim reg g N 0 (some g.start_node) h0
      (HeapM.cellAt h0 initAddr) [] [] (initialLoopInv h0 initAddr hdc)
    obtain ⟨plogs2, hpe, ⟨ext, hext⟩, hdc2, hwb2, hlm2, hsd2⟩ :=
      ihOk st cur h2 wd2 hlogs2 hrl
    refine ⟨HeapM.matDict h2 wd2, plogs2, hpe, rfl, ?_, ?_⟩
    · exact List.Forall₂.imp (fun slH slP hrel => ⟨hrel.1, hrel.2.1, hrel.2.2.1, hrel.2.2.2.2⟩) hlm2
    · intro h' hagree sl hsl
      refine HeapM.matCell_congr h2 sl.state_snapshot h' ?_
      intro x hx
      by_cases hsame : HeapM.cellAt h' x = HeapM.cellAt h2 x
      · exact hsame
      · obtain ⟨k, b, hmem, hrb⟩ := hagree x hsame
        exact absurd hx (hsd2 sl hsl k b hmem x hrb)

/-- C7 witness: the single-step fixture run; its snapshot (address 3)
materialises to the replay's post-merge state and is immune to mutation of
the cells reachable from the returned state. -/
theorem C7_snapshot_deep_copy_witness :
    ∃ pst plogs,
      HeapM.runLoopP HeapM.reg7 HeapM.g7 0 2 (some HeapM.g7.start_node)
          (HeapM.matDict HeapM.h7heap0 (HeapM.cellAt HeapM.h7heap0 0)) []
        = Except.ok (HeapM.run7.status, HeapM.run7.current_node, pst, plogs)
      ∧ HeapM.matDict HeapM.hF7 HeapM.run7.state = pst
      ∧ List.Forall₂ (fun (slH : HeapM.StepLogH) (slP : HeapM.StepLogP) =>
          slH.step_index = slP.step_index ∧ slH.node_id = slP.node_id
          ∧ slH.tool = slP.tool
          ∧ HeapM.matCell HeapM.hF7 slH.state_snapshot = HeapM.PVal.dict slP.state_snapshot)
          HeapM.run7.log plogs
      ∧ (∀ h', (∀ a, HeapM.cellAt h' a ≠ HeapM.cellAt HeapM.hF7 a →
            ∃ k b, (k, HeapM.HVal.ref b) ∈ HeapM.run7.state ∧ HeapM.Reach HeapM.hF7 b a) →
          ∀ sl ∈ HeapM.run7.log,
            HeapM.matCell h' sl.state_snapshot = HeapM.matCell HeapM.hF7 sl.state_snapshot) :=
  C7_snapshot_deep_copy HeapM.reg7 HeapM.g7 HeapM.h7heap0 0 2
    (by
      intro a k b hm
      have hcell : HeapM.cellAt HeapM.h7heap0 a = [] := by
        cases a with
        | zero => rfl
        | succ n => rfl
      rw [hcell] at hm
      cases hm)
    HeapM.run7 HeapM.hF7
    (by
      simp [HeapM.runGraphH, HeapM.runLoopH, HeapM.getToolH, HeapM.reg7, HeapM.g7,
        HeapM.tool7, HeapM.h7heap0, HeapM.orEmptyP, HeapM.allocEntries, HeapM.allocVal,
        HeapM.dictUpdate, HeapM.setKey, HeapM.deepcopyDict, HeapM.deepcopyCell,
        HeapM.deepcopyEntries, HeapM.cellAt, HeapM.nextNodeIdH, HeapM.run7, HeapM.hF7])

/-- C10: in the heap model of run_graph, the working state is initialised
as a shallow copy of the caller's initial_state dict — it starts with
exactly the caller's top-level key/value bindings, nested references
shared — and the run never mutates any pre-existing heap cell: every cell
of the caller's heap, in particular the initial_state dict itself and
everything it references, is unchanged in the final heap. -/
theorem C10_shallow_copy_contract (reg : String → Option HeapM.ToolH) (g : HeapM.GraphH)
    (h0 : HeapM.Heap) (initAddr N : Nat) (hdc : HeapM.heapDC h0) :
    (HeapM.runGraphH reg g h0 initAddr 0 = Except.ok
      ({ graph_id := g.id, status := "failed", current_node := some g.start_node,
         state := HeapM.cellAt h0 initAddr, log := [] }, h0))
    ∧ (∀ run hF, HeapM.runGraphH reg g h0 initAddr N = Except.ok (run, hF) →
        ∀ a, a < h0.length → HeapM.cellAt hF a = HeapM.cellAt h0 a) := by
  constructor
  · rfl
  · intro run hF hrun a ha
    rcases hrl : HeapM.runLoopH reg g 0 N (some g.start_node) h0 (HeapM.cellAt h0 initAddr) []
      with e | res
    · rw [HeapM.runGraphH, hrl] at hrun
      cases hrun
    · obtain ⟨st, cur, h2, wd2, hlogs2⟩ := res
      rw [HeapM.runGraphH, hrl] at hrun
      injection hrun with hrun2
      injection hrun2 with hrunA hrunB
      subst hrunB
      obtain ⟨ihErr, ihOk⟩ := HeapM.runLoopH_sim reg g N 0 (some g.start_node) h0
        (HeapM.cellAt h0 initAddr) [] [] (initialLoopInv h0 initAddr hdc)
      obtain ⟨plogs2, hpe, ⟨ext, hext⟩, hinv2⟩ := ihOk st cur h2 wd2 hlogs2 hrl
      subst hext
      exact HeapM.cellAt_append _ _ _ ha

/-- C10 witness: after the fixture run, the caller's dict cell is
unchanged; with budget 0 the run starts from exactly the caller's
bindings. -/
theorem C10_shallow_copy_contract_witness :
    (HeapM.runGraphH HeapM.reg7 HeapM.g7 HeapM.h7heap0 0 0 = Except.ok
      ({ graph_id := HeapM.g7.id, status := "failed",
         current_node := some HeapM.g7.start_node,
         state := HeapM.cellAt HeapM.h7heap0 0, log := [] }, HeapM.h7heap0))
    ∧ HeapM.cellAt HeapM.hF7 0 = HeapM.cellAt HeapM.h7heap0 0 := by
  obtain ⟨w1, w2⟩ := C10_shallow_copy_contract HeapM.reg7 HeapM.g7 HeapM.h7heap0 0 2
    (by
      intro a k b hm
      have hcell : HeapM.cellAt HeapM.h7heap0 a = [] := by
        cases a with
        | zero => rfl
        | succ n => rfl
      rw [hcell] at hm
      cases hm)
  refine ⟨w1, w2 HeapM.run7 HeapM.hF7 ?_ 0 (by decide)⟩
  simp [HeapM.runGraphH, HeapM.runLoopH, HeapM.getToolH, HeapM.reg7, HeapM.g7,
    HeapM.tool7, HeapM.h7heap0, HeapM.orEmptyP, HeapM.allocEntries, HeapM.allocVal,
    HeapM.dictUpdate, HeapM.setKey, HeapM.deepcopyDict, HeapM.deepcopyCell,
    HeapM.deepcopyEntries, HeapM.cellAt, HeapM.nextNodeIdH, HeapM.run7, HeapM.hF7]

/-- C9 witness: overwrite and missing-name lookup on a concrete registry. -/
theorem C9_registry_last_write_wins_witness :
    ((emptyRegistry.register "a" noopTool).register "a" (oneTool "x")).get "a" =
      Except.ok (oneTool "x")
    ∧ emptyRegistry.get "b" = Except.error (Err.toolNotFound "b") := by
  obtain ⟨h1, h2⟩ :=
    C9_registry_last_write_wins emptyRegistry "a" "b" noopTool (oneTool "x")
  exact ⟨h1, h2 rfl⟩

end WFE
